import Mathlib

/-!
Verification of the `nekopara` crawl scheduler (`src/index.ts`).

The development shallowly embeds the data model and operations of the
scheduler: the crawl tree of task/data nodes, the buffered collector
commit (`createAddFunc`), the task body built in `addTask`, the public
operations (`register`, `start`, `getResults`, `snapshot`, `stop`) and
the iterative pre-order traversal (`preOrderTraversal`).

JavaScript's single-threaded event loop means every synchronous block of
the source runs atomically; the mutation sites (the `exec` commit plus
the `node.state` assignment, `startWithSnapshot`, `stop`) are each one
synchronous block, so a run of the scheduler is modelled as a sequence of
atomic steps (`Step`) on a scheduler state.
-/

namespace Nekopara

/-- JSON-representable payload values (the `Data = any` payloads are
documented in the spec as "any serializable value"; `JSON.stringify` /
`JSON.parse` round-trips exactly the JSON-representable ones). -/
inductive JVal where
  | null : JVal
  | bool : Bool → JVal
  | num  : Int → JVal
  | str  : String → JVal
  | arr  : List JVal → JVal
  | obj  : List (String × JVal) → JVal

/-- `enum TaskState {waiting, done, fail}` from the source. -/
inductive TaskState where
  | waiting : TaskState
  | done    : TaskState
  | fail    : TaskState
deriving DecidableEq

/-- The two node shapes of the crawl tree: `DataNode {type, data}` and
`TaskNode {type, state, template, url, children}`.  The `type` tag of the
source is the constructor. -/
inductive Node where
  | data : JVal → Node
  | task : TaskState → String → String → List Node → Node

/-- `createTaskNode` from the source: a fresh task node is `waiting` with
no children. -/
def createTaskNode (template url : String) : Node :=
  Node.task TaskState.waiting template url []

/-- `createDataNode` from the source. -/
def createDataNode (d : JVal) : Node :=
  Node.data d

mutual
/-- Size of a node (for termination measures). -/
def Node.size : Node → Nat
  | .data _ => 1
  | .task _ _ _ cs => 1 + Node.sizeList cs

/-- Total size of a list of nodes. -/
def Node.sizeList : List Node → Nat
  | [] => 0
  | c :: cs => Node.size c + Node.sizeList cs
end

/-- The creation identity of a node: a data node is identified by its
payload, a task node by its template and url (state and children are the
mutable parts of a task node; in the source the child array holds stable
object references whose own fields evolve). -/
inductive NodeId where
  | dataId : JVal → NodeId
  | taskId : String → String → NodeId

def localId : Node → NodeId
  | .data d => .dataId d
  | .task _ tpl u _ => .taskId tpl u

/-- Replace the element at an index, leaving the list unchanged when the
index is out of range (JS array element assignment within bounds). -/
def modifyIdx : Nat → (Node → Node) → List Node → List Node
  | _, _, [] => []
  | 0, f, c :: cs => f c :: cs
  | i + 1, f, c :: cs => c :: modifyIdx i f cs

/-- The node reached from `n` by the path of child indices `p`.  Paths
model the stable object references of the source: the tree is only ever
grown by appending children, so the position of a node never changes. -/
def nodeAt : List Nat → Node → Option Node
  | [], n => some n
  | _ :: _, .data _ => none
  | i :: p, .task _ _ _ cs => cs[i]?.bind (nodeAt p)

/-- Apply `f` to the node at path `p` (identity when the path is dead). -/
def updateAt : List Nat → (Node → Node) → Node → Node
  | [], f, n => f n
  | _ :: _, _, .data d => .data d
  | i :: p, f, .task st tpl u cs => .task st tpl u (modifyIdx i (updateAt p f) cs)

/-- `node.state = st` on a task node. -/
def setState (st : TaskState) : Node → Node
  | .data d => .data d
  | .task _ tpl u cs => .task st tpl u cs

/-- `taskNode.children.push(c)`. -/
def appendChild (c : Node) : Node → Node
  | .data d => .data d
  | .task st tpl u cs => .task st tpl u (cs ++ [c])

theorem modifyIdx_get?_self (i : Nat) (f : Node → Node) (l : List Node) :
    (modifyIdx i f l)[i]? = l[i]?.map f := by
  induction l generalizing i with
  | nil => cases i <;> simp [modifyIdx]
  | cons c cs ih =>
    cases i with
    | zero => simp [modifyIdx]
    | succ j => simpa [modifyIdx] using ih j

theorem modifyIdx_get?_other (i j : Nat) (f : Node → Node) (l : List Node)
    (h : i ≠ j) : (modifyIdx i f l)[j]? = l[j]? := by
  induction l generalizing i j with
  | nil => cases i <;> simp [modifyIdx]
  | cons c cs ih =>
    cases i with
    | zero => cases j with
      | zero => exact absurd rfl h
      | succ k => simp [modifyIdx]
    | succ i2 => cases j with
      | zero => simp [modifyIdx]
      | succ k => simpa [modifyIdx] using ih i2 k (by omega)

theorem modifyIdx_id_of (i : Nat) (f : Node → Node) (l : List Node)
    (h : ∀ c, l[i]? = some c → f c = c) : modifyIdx i f l = l := by
  induction l generalizing i with
  | nil => cases i <;> simp [modifyIdx]
  | cons c cs ih =>
    cases i with
    | zero => simp [modifyIdx, h c (by simp)]
    | succ j =>
      simp only [modifyIdx, List.cons.injEq, true_and]
      exact ih j (fun c2 hc2 => h c2 (by simpa using hc2))

theorem modifyIdx_length (i : Nat) (f : Node → Node) (l : List Node) :
    (modifyIdx i f l).length = l.length := by
  induction l generalizing i with
  | nil => cases i <;> simp [modifyIdx]
  | cons c cs ih => cases i with
    | zero => simp [modifyIdx]
    | succ j => simpa [modifyIdx] using ih j

theorem modifyIdx_map_of_preserve (i : Nat) (f : Node → Node)
    (h : ∀ x, localId (f x) = localId x) (l : List Node) :
    (modifyIdx i f l).map localId = l.map localId := by
  induction l generalizing i with
  | nil => cases i <;> simp [modifyIdx]
  | cons c cs ih => cases i with
    | zero => simp [modifyIdx, h]
    | succ j => simpa [modifyIdx] using ih j

/-- A dead path stays dead and the update is the identity there. -/
theorem updateAt_of_nodeAt_none (p : List Nat) (f : Node → Node) (t : Node)
    (h : nodeAt p t = none) : updateAt p f t = t := by
  induction p generalizing t with
  | nil => simp [nodeAt] at h
  | cons i q ih =>
    cases t with
    | data d => simp [updateAt]
    | task st tpl u cs =>
      simp only [nodeAt] at h
      simp only [updateAt, Node.task.injEq, true_and]
      apply modifyIdx_id_of
      intro c hc
      rw [hc] at h
      simp only [Option.some_bind] at h
      exact ih c h

/-- Updating along `p ++ r` is updating the subtree at `p` along `r`. -/
theorem updateAt_append (p r : List Nat) (f : Node → Node) (t : Node) :
    updateAt (p ++ r) f t = updateAt p (updateAt r f) t := by
  induction p generalizing t with
  | nil => simp [updateAt]
  | cons i q ih =>
    cases t with
    | data d => simp [updateAt]
    | task st tpl u cs =>
      simp only [List.cons_append, updateAt]
      congr 1
      have : ∀ l j, modifyIdx j (updateAt (q ++ r) f) l
          = modifyIdx j (fun c => updateAt q (updateAt r f) c) l := by
        intro l
        induction l with
        | nil => intro j; cases j <;> simp [modifyIdx]
        | cons c cs2 ih2 =>
          intro j
          cases j with
          | zero => simp [modifyIdx, ih]
          | succ k => simp [modifyIdx, ih2 k]
      exact this cs i

/-- Reading through the updated path: the subtree at `p` is replaced by
its image under `f`. -/
theorem nodeAt_updateAt_append (p r : List Nat) (f : Node → Node) (t n : Node)
    (h : nodeAt p t = some n) :
    nodeAt (p ++ r) (updateAt p f t) = nodeAt r (f n) := by
  induction p generalizing t with
  | nil =>
    simp only [nodeAt, Option.some.injEq] at h
    subst h
    simp [updateAt]
  | cons i q ih =>
    cases t with
    | data d => simp [nodeAt] at h
    | task st tpl u cs =>
      simp only [nodeAt] at h
      cases hg : cs[i]? with
      | none => simp [hg] at h
      | some c =>
        rw [hg] at h
        simp only [Option.some_bind] at h
        simp only [List.cons_append, updateAt, nodeAt]
        rw [modifyIdx_get?_self, hg]
        simpa using ih c h

theorem nodeAt_updateAt_self (p : List Nat) (f : Node → Node) (t n : Node)
    (h : nodeAt p t = some n) :
    nodeAt p (updateAt p f t) = some (f n) := by
  have := nodeAt_updateAt_append p [] f t n h
  simpa [nodeAt] using this

/-- Reading along a concatenated path goes through the intermediate node. -/
theorem nodeAt_append (p q : List Nat) (t : Node) :
    nodeAt (p ++ q) t = (nodeAt p t).bind (nodeAt q) := by
  induction p generalizing t with
  | nil => simp [nodeAt]
  | cons i r ih =>
    cases t with
    | data d => simp [nodeAt]
    | task st tpl u cs =>
      simp only [List.cons_append, nodeAt]
      cases cs[i]? with
      | none => simp
      | some c => simp [ih c]

/-- An update at `p` under its own parent: reading at the same path with
the subtree mapped. -/
theorem nodeAt_updateAt_map (p : List Nat) (f : Node → Node) (t : Node) :
    nodeAt p (updateAt p f t) = (nodeAt p t).map f := by
  cases h : nodeAt p t with
  | none => rw [updateAt_of_nodeAt_none p f t h, h]; rfl
  | some n => simpa using nodeAt_updateAt_self p f t n h

/-- Reading at a strict ancestor of the updated path: the node is still
there and only the subtree below the update point changed. -/
theorem nodeAt_updateAt_above (q r : List Nat) (f : Node → Node) (t : Node) :
    nodeAt q (updateAt (q ++ r) f t) = (nodeAt q t).map (updateAt r f) := by
  rw [updateAt_append, nodeAt_updateAt_map]

/-- Any two paths either extend one another or diverge at a first index. -/
theorem path_trichotomy (p q : List Nat) :
    (∃ r, q = p ++ r) ∨ (∃ r, r ≠ [] ∧ p = q ++ r) ∨
    (∃ a i j r1 r2, i ≠ j ∧ p = a ++ i :: r1 ∧ q = a ++ j :: r2) := by
  induction p generalizing q with
  | nil => exact Or.inl ⟨q, rfl⟩
  | cons i p2 ih =>
    cases q with
    | nil => exact Or.inr (Or.inl ⟨i :: p2, by simp, rfl⟩)
    | cons j q2 =>
      by_cases hij : i = j
      · subst hij
        rcases ih q2 with ⟨r, hr⟩ | ⟨r, hne, hr⟩ | ⟨a, i2, j2, r1, r2, hne, h1, h2⟩
        · exact Or.inl ⟨r, by simp [hr]⟩
        · exact Or.inr (Or.inl ⟨r, hne, by simp [hr]⟩)
        · exact Or.inr (Or.inr ⟨i :: a, i2, j2, r1, r2, hne, by simp [h1], by simp [h2]⟩)
      · exact Or.inr (Or.inr ⟨[], i, j, p2, q2, hij, rfl, rfl⟩)

/-- An update at a path diverging from `q` at some index leaves the node
at `q` unchanged. -/
theorem nodeAt_updateAt_incomp (a : List Nat) (i j : Nat) (r1 r2 : List Nat)
    (hij : i ≠ j) (f : Node → Node) (t : Node) :
    nodeAt (a ++ j :: r2) (updateAt (a ++ i :: r1) f t) = nodeAt (a ++ j :: r2) t := by
  induction a generalizing t with
  | nil =>
    cases t with
    | data d => simp [updateAt]
    | task st tpl u cs =>
      simp only [List.nil_append, updateAt, nodeAt]
      rw [modifyIdx_get?_other i j _ _ hij]
  | cons k a2 ih =>
    cases t with
    | data d => simp [updateAt]
    | task st tpl u cs =>
      simp only [List.cons_append, updateAt, nodeAt]
      rw [modifyIdx_get?_self]
      cases hg : cs[k]? with
      | none => simp
      | some c => simp [ih c]

/-- A task node with no children has no strict descendants. -/
theorem nodeAt_below_leaf (p : List Nat) (t : Node) (st : TaskState)
    (tpl u : String) (h : nodeAt p t = some (.task st tpl u []))
    (i : Nat) (r : List Nat) : nodeAt (p ++ i :: r) t = none := by
  rw [nodeAt_append, h]
  simp [nodeAt]

/-- `updateAt` with a creation-identity-preserving function preserves the
creation identity of the node it lands on (and of every node above). -/
theorem localId_updateAt (r : List Nat) (f : Node → Node)
    (hf : ∀ n, localId (f n) = localId n) (m : Node) :
    localId (updateAt r f m) = localId m := by
  cases r with
  | nil => exact hf m
  | cons i q => cases m with
    | data d => rfl
    | task st tpl u cs => rfl

theorem localId_setState (st : TaskState) (n : Node) :
    localId (setState st n) = localId n := by
  cases n <;> rfl

/-! ## The iterative pre-order traversal (`preOrderTraversal`)

The source walks the tree with an explicit stack of frames
`{cur, len, node}`; a frame's pending part `children.slice(cur+1)` is kept
here as the remaining list.  The callback argument of the source is
modelled by returning the list of visited nodes in visitation order (the
callback is applied to exactly those nodes, in that order). -/

mutual
/-- Recursive depth-first, left-to-right visitation order: the node, then
each child's subtree in order (the specification-side description of the
walk). -/
def preorderSpec : Node → List Node
  | .data d => [.data d]
  | .task st tpl u cs => .task st tpl u cs :: preorderSpecList cs

def preorderSpecList : List Node → List Node
  | [] => []
  | c :: rest => preorderSpec c ++ preorderSpecList rest
end

/-- Termination measure for the traversal loop. -/
def stackMeasure (fs : List (List Node)) : Nat :=
  (fs.map (fun rs => 1 + 2 * Node.sizeList rs)).sum

/-- The `while (stack.length)` loop of `preOrderTraversal`: the top frame
either is exhausted (`top.cur === top.len - 1`, popped) or yields its next
child, which is visited and, when a task node, pushes a frame of its own
children. -/
def travLoop : List (List Node) → List Node
  | [] => []
  | [] :: fs => travLoop fs
  | (c :: rest) :: fs =>
    match c with
    | .data d => .data d :: travLoop (rest :: fs)
    | .task st tpl u cs => .task st tpl u cs :: travLoop (cs :: rest :: fs)
termination_by fs => stackMeasure fs
decreasing_by
  all_goals simp only [stackMeasure, List.map_cons, List.sum_cons, Node.sizeList, Node.size]
  all_goals omega

/-- `preOrderTraversal` from the source: visit the root (pushing a frame
when it is a task node), then run the loop. -/
def preOrderTraversal (root : Node) : List Node :=
  match root with
  | .data d => [.data d]
  | .task st tpl u cs => .task st tpl u cs :: travLoop [cs]

theorem stackMeasure_pos (rs : List Node) (fs : List (List Node)) :
    0 < stackMeasure (rs :: fs) := by
  simp only [stackMeasure, List.map_cons, List.sum_cons]
  omega

theorem travLoop_eq_aux : ∀ N fs, stackMeasure fs ≤ N →
    travLoop fs = (fs.map preorderSpecList).flatten := by
  intro N
  induction N with
  | zero =>
    intro fs h
    cases fs with
    | nil => simp [travLoop]
    | cons rs fs2 => exact absurd h (by have := stackMeasure_pos rs fs2; omega)
  | succ N ih =>
    intro fs h
    match fs with
    | [] => simp [travLoop]
    | [] :: fs2 =>
      rw [travLoop]
      rw [ih fs2 (by simp [stackMeasure] at h ⊢; omega)]
      simp [preorderSpecList]
    | (c :: rest) :: fs2 =>
      cases c with
      | data d =>
        rw [travLoop]
        rw [ih (rest :: fs2)
          (by simp [stackMeasure, Node.sizeList, Node.size] at h ⊢; omega)]
        simp [preorderSpecList, preorderSpec]
      | task st tpl u cs =>
        rw [travLoop]
        rw [ih (cs :: rest :: fs2)
          (by simp [stackMeasure, Node.sizeList, Node.size] at h ⊢; omega)]
        simp [preorderSpecList, preorderSpec]

/-- The iterative traversal visits exactly the recursive depth-first,
left-to-right order. -/
theorem preOrderTraversal_eq (root : Node) :
    preOrderTraversal root = preorderSpec root := by
  cases root with
  | data d => rfl
  | task st tpl u cs =>
    rw [preOrderTraversal, preorderSpec,
      travLoop_eq_aux (stackMeasure [cs]) [cs] le_rfl]
    simp

mutual
/-- The same visitation order, annotated with the path of every visited
node (the source walks object references; paths are their addresses). -/
def preorderPaths : Node → List Nat → List (List Nat × Node)
  | .data d, p => [(p, .data d)]
  | .task st tpl u cs, p => (p, .task st tpl u cs) :: preorderPathsChildren cs p 0

def preorderPathsChildren : List Node → List Nat → Nat → List (List Nat × Node)
  | [], _, _ => []
  | c :: rest, p, i => preorderPaths c (p ++ [i]) ++ preorderPathsChildren rest p (i + 1)
end

mutual
theorem preorderPaths_map_snd (t : Node) (p : List Nat) :
    (preorderPaths t p).map Prod.snd = preorderSpec t := by
  cases t with
  | data d => simp [preorderPaths, preorderSpec]
  | task st tpl u cs =>
    simp only [preorderPaths, preorderSpec, List.map_cons, List.cons.injEq, true_and]
    exact preorderPathsChildren_map_snd cs p 0

theorem preorderPathsChildren_map_snd (cs : List Node) (p : List Nat) (i : Nat) :
    (preorderPathsChildren cs p i).map Prod.snd = preorderSpecList cs := by
  cases cs with
  | nil => simp [preorderPathsChildren, preorderSpecList]
  | cons c rest =>
    simp only [preorderPathsChildren, preorderSpecList, List.map_append]
    rw [preorderPaths_map_snd c (p ++ [i]), preorderPathsChildren_map_snd rest p (i + 1)]
end

mutual
/-- The annotated walk visits exactly the nodes of the tree, each at its
path. -/
theorem mem_preorderPaths (t : Node) (p q : List Nat) (n : Node) :
    (q, n) ∈ preorderPaths t p ↔ ∃ r, q = p ++ r ∧ nodeAt r t = some n := by
  cases t with
  | data d =>
    simp only [preorderPaths, List.mem_singleton, Prod.mk.injEq]
    constructor
    · rintro ⟨h1, h2⟩
      exact ⟨[], by simp [h1], by simp [nodeAt, h2]⟩
    · rintro ⟨r, hq, hr⟩
      cases r with
      | nil => simp [nodeAt] at hr; simp [hq, hr]
      | cons i r2 => simp [nodeAt] at hr
  | task st tpl u cs =>
    simp only [preorderPaths, List.mem_cons, Prod.mk.injEq]
    rw [mem_preorderPathsChildren cs p 0 q n]
    constructor
    · rintro (⟨h1, h2⟩ | ⟨j, c, r, hg, hq, hr⟩)
      · exact ⟨[], by simp [h1], by simp [nodeAt, h2]⟩
      · exact ⟨j :: r, by simpa using hq, by simp [nodeAt, hg, hr]⟩
    · rintro ⟨r, hq, hr⟩
      cases r with
      | nil =>
        simp only [nodeAt, Option.some.injEq] at hr
        exact Or.inl ⟨by simp [hq], hr.symm⟩
      | cons j r2 =>
        simp only [nodeAt] at hr
        cases hg : cs[j]? with
        | none => simp [hg] at hr
        | some c =>
          rw [hg] at hr
          simp only [Option.some_bind] at hr
          exact Or.inr ⟨j, c, r2, hg, by simpa using hq, hr⟩

theorem mem_preorderPathsChildren (cs : List Node) (p : List Nat) (i : Nat)
    (q : List Nat) (n : Node) :
    (q, n) ∈ preorderPathsChildren cs p i ↔
      ∃ j c r, cs[j]? = some c ∧ q = p ++ (i + j) :: r ∧ nodeAt r c = some n := by
  cases cs with
  | nil => simp [preorderPathsChildren]
  | cons c rest =>
    simp only [preorderPathsChildren, List.mem_append]
    rw [mem_preorderPaths c (p ++ [i]) q n,
      mem_preorderPathsChildren rest p (i + 1) q n]
    constructor
    · rintro (⟨r, hq, hr⟩ | ⟨j, c2, r, hg, hq, hr⟩)
      · exact ⟨0, c, r, by simp, by simpa using hq, hr⟩
      · exact ⟨j + 1, c2, r, by simpa using hg, by simp [hq]; ring_nf, hr⟩
    · rintro ⟨j, c2, r, hg, hq, hr⟩
      cases j with
      | zero =>
        simp only [List.getElem?_cons_zero, Option.some.injEq] at hg
        subst hg
        exact Or.inl ⟨r, by simpa using hq, hr⟩
      | succ j2 =>
        simp only [List.getElem?_cons_succ] at hg
        refine Or.inr ⟨j2, c2, r, hg, ?_, hr⟩
        rw [hq]
        congr 2
        omega
end

mutual
/-- No node is visited twice: the paths of the walk are pairwise distinct. -/
theorem preorderPaths_fst_nodup (t : Node) (p : List Nat) :
    ((preorderPaths t p).map Prod.fst).Nodup := by
  cases t with
  | data d => simp [preorderPaths]
  | task st tpl u cs =>
    simp only [preorderPaths, List.map_cons, List.nodup_cons]
    refine ⟨?_, preorderPathsChildren_fst_nodup cs p 0⟩
    intro hmem
    obtain ⟨⟨q, n⟩, hin, hq⟩ := List.mem_map.mp hmem
    obtain ⟨j, c, r, _, hform, _⟩ := (mem_preorderPathsChildren cs p 0 q n).mp hin
    subst hq
    have := congrArg List.length hform
    simp at this

theorem preorderPathsChildren_fst_nodup (cs : List Node) (p : List Nat) (i : Nat) :
    ((preorderPathsChildren cs p i).map Prod.fst).Nodup := by
  cases cs with
  | nil => simp [preorderPathsChildren]
  | cons c rest =>
    simp only [preorderPathsChildren, List.map_append]
    refine List.Nodup.append (preorderPaths_fst_nodup c (p ++ [i]))
      (preorderPathsChildren_fst_nodup rest p (i + 1)) ?_
    intro q hq1 hq2
    obtain ⟨⟨q1, n1⟩, hin1, he1⟩ := List.mem_map.mp hq1
    obtain ⟨⟨q2, n2⟩, hin2, he2⟩ := List.mem_map.mp hq2
    obtain ⟨r1, hf1, _⟩ := (mem_preorderPaths c (p ++ [i]) q1 n1).mp hin1
    obtain ⟨j, c2, r2, _, hf2, _⟩ :=
      (mem_preorderPathsChildren rest p (i + 1) q2 n2).mp hin2
    subst he1
    subst he2
    rw [hf2] at hf1
    rw [List.append_assoc] at hf1
    have := List.append_cancel_left hf1
    simp only [List.singleton_append, List.cons.injEq] at this
    omega
end

/-- Membership in the recursive visitation order is existence at a path. -/
theorem mem_preorderSpec (t n : Node) :
    n ∈ preorderSpec t ↔ ∃ q, nodeAt q t = some n := by
  rw [← preorderPaths_map_snd t []]
  constructor
  · intro hmem
    obtain ⟨⟨q, n2⟩, hin, he⟩ := List.mem_map.mp hmem
    obtain ⟨r, hr, hn⟩ := (mem_preorderPaths t [] q n2).mp hin
    exact ⟨r, by rw [hn]; exact congrArg some he⟩
  · rintro ⟨q, hq⟩
    exact List.mem_map.mpr ⟨(q, n),
      (mem_preorderPaths t [] q n).mpr ⟨q, by simp, hq⟩, rfl⟩

/-! ## Snapshot serialization (`JSON.stringify` / `JSON.parse`)

`snapshot()` is `JSON.parse(JSON.stringify(this.crawlTree))`.  The
stringified document of a crawl tree is modelled at the level of the JSON
document it denotes; `encodeNode` is what `JSON.stringify` writes for a
node (enum tags are their numeric values), `decodeNode` recovers the node
`JSON.parse` yields. -/

def stateCode : TaskState → Int
  | .waiting => 0
  | .done => 1
  | .fail => 2

def decodeState : Int → Option TaskState
  | 0 => some .waiting
  | 1 => some .done
  | 2 => some .fail
  | _ => none

theorem decodeState_stateCode (st : TaskState) :
    decodeState (stateCode st) = some st := by
  cases st <;> rfl

mutual
def encodeNode : Node → JVal
  | .data d => .obj [("type", .num 0), ("data", d)]
  | .task st tpl u cs =>
      .obj [("type", .num 1), ("state", .num (stateCode st)),
            ("template", .str tpl), ("url", .str u),
            ("children", .arr (encodeNodeList cs))]

def encodeNodeList : List Node → List JVal
  | [] => []
  | c :: cs => encodeNode c :: encodeNodeList cs
end

mutual
def decodeNode : JVal → Option Node
  | .obj [("type", .num 0), ("data", d)] => some (.data d)
  | .obj [("type", .num 1), ("state", .num sc), ("template", .str tpl),
          ("url", .str u), ("children", .arr l)] =>
      match decodeState sc, decodeNodeList l with
      | some st, some cs => some (.task st tpl u cs)
      | _, _ => none
  | _ => none

def decodeNodeList : List JVal → Option (List Node)
  | [] => some []
  | v :: vs =>
      match decodeNode v, decodeNodeList vs with
      | some c, some cs => some (c :: cs)
      | _, _ => none
end

mutual
/-- A full serialize/deserialize cycle loses nothing: kind, state, child
ordering and payload values all survive. -/
theorem decode_encode (t : Node) : decodeNode (encodeNode t) = some t := by
  cases t with
  | data d => rfl
  | task st tpl u cs =>
    rw [encodeNode, decodeNode]
    rw [decodeState_stateCode, decode_encode_list cs]

theorem decode_encode_list (cs : List Node) :
    decodeNodeList (encodeNodeList cs) = some cs := by
  cases cs with
  | nil => rfl
  | cons c rest =>
    rw [encodeNodeList, decodeNodeList, decode_encode c, decode_encode_list rest]
end

/-! ## `getResults` -/

/-- The callback of `getResults`, folded over the visitation order: data
payloads are appended to `list`, and `complete` is cleared by any task
node whose state is not `done`. -/
def resultsFold : List Node → List JVal → Bool → List JVal × Bool
  | [], list, complete => (list, complete)
  | .task st _ _ _ :: ns, list, complete =>
      resultsFold ns list (if st = .done then complete else false)
  | .data d :: ns, list, complete => resultsFold ns (list ++ [d]) complete

/-- `getResults` from the source.  On a scheduler whose `crawlTree` is
still `null` the source dereferences `node.type` on `null` inside the
traversal callback and throws a `TypeError`; that is the `.error` case. -/
def getResults : Option Node → Except String (List JVal × Bool)
  | none => .error "TypeError: cannot read property type of null"
  | some root => .ok (resultsFold (preOrderTraversal root) [] true)

def dataOf : Node → Option JVal
  | .data d => some d
  | .task _ _ _ _ => none

def taskDoneB : Node → Bool
  | .data _ => true
  | .task st _ _ _ => st = .done

mutual
/-- Specification-side list of all data payloads in depth-first,
left-to-right order. -/
def collectData : Node → List JVal
  | .data d => [d]
  | .task _ _ _ cs => collectDataList cs

def collectDataList : List Node → List JVal
  | [] => []
  | c :: cs => collectData c ++ collectDataList cs
end

mutual
/-- Specification-side flag: every task node of the tree is `done`. -/
def allDone : Node → Bool
  | .data _ => true
  | .task st _ _ cs => (st = .done : Bool) && allDoneList cs

def allDoneList : List Node → Bool
  | [] => true
  | c :: cs => allDone c && allDoneList cs
end

theorem resultsFold_eq (ns : List Node) (list : List JVal) (complete : Bool) :
    resultsFold ns list complete =
      (list ++ ns.filterMap dataOf, complete && ns.all taskDoneB) := by
  induction ns generalizing list complete with
  | nil => simp [resultsFold]
  | cons c rest ih =>
    cases c with
    | data d => simp [resultsFold, ih, dataOf, taskDoneB]
    | task st tpl u cs =>
      rw [resultsFold, ih]
      by_cases hst : st = .done <;>
        simp [hst, dataOf, taskDoneB, List.all_cons]

mutual
theorem filterMap_preorderSpec (t : Node) :
    (preorderSpec t).filterMap dataOf = collectData t := by
  cases t with
  | data d => simp [preorderSpec, collectData, dataOf]
  | task st tpl u cs =>
    simp only [preorderSpec, collectData, List.filterMap_cons, dataOf]
    exact filterMap_preorderSpecList cs

theorem filterMap_preorderSpecList (cs : List Node) :
    (preorderSpecList cs).filterMap dataOf = collectDataList cs := by
  cases cs with
  | nil => simp [preorderSpecList, collectDataList]
  | cons c rest =>
    simp only [preorderSpecList, collectDataList, List.filterMap_append]
    rw [filterMap_preorderSpec c, filterMap_preorderSpecList rest]
end

mutual
theorem all_preorderSpec (t : Node) :
    (preorderSpec t).all taskDoneB = allDone t := by
  cases t with
  | data d => simp [preorderSpec, allDone, taskDoneB]
  | task st tpl u cs =>
    simp only [preorderSpec, allDone, List.all_cons, taskDoneB]
    rw [all_preorderSpecList cs]

theorem all_preorderSpecList (cs : List Node) :
    (preorderSpecList cs).all taskDoneB = allDoneList cs := by
  cases cs with
  | nil => simp [preorderSpecList, allDoneList]
  | cons c rest =>
    simp only [preorderSpecList, allDoneList, List.all_append]
    rw [all_preorderSpec c, all_preorderSpecList rest]
end

/-- The `complete` flag is exactly "every task node currently in the tree
is `done`". -/
theorem allDone_iff_paths (t : Node) :
    allDone t = true ↔
      ∀ p st tpl u cs, nodeAt p t = some (.task st tpl u cs) → st = .done := by
  rw [← all_preorderSpec, List.all_eq_true]
  constructor
  · intro h p st tpl u cs hp
    have := h _ ((mem_preorderSpec t _).mpr ⟨p, hp⟩)
    simpa [taskDoneB] using this
  · intro h n hn
    obtain ⟨q, hq⟩ := (mem_preorderSpec t n).mp hn
    cases n with
    | data d => simp [taskDoneB]
    | task st tpl u cs => simpa [taskDoneB] using h q st tpl u cs hq

/-! ## Scheduler state

JavaScript is single threaded: every synchronous block runs atomically.
The state below holds exactly the fields of the `Nekopara` class (plus
the list of emitted events, and `startUsed`, which models the source
replacing `this.start` by a throwing function after the first call).
The task queue entry keeps the path of the node the task closure captured
by reference, together with the `template`/`url` arguments of `addTask`. -/

/-- Resolved options (after `Object.assign` with the defaults). -/
structure Options where
  thread : Nat
  interval : Nat
  distinct : Bool

/-- The optional constructor argument. -/
structure OptsArg where
  thread : Option Nat := none
  interval : Option Nat := none
  distinct : Option Bool := none

/-- `Object.assign({}, defaultOpts, opts)` with
`{thread: 1, interval: 0, distinct: true}`. -/
def resolveOptions (o : OptsArg) : Options :=
  { thread := o.thread.getD 1
    interval := o.interval.getD 0
    distinct := o.distinct.getD true }

/-- Events emitted through the `EventEmitter` base class. -/
inductive Event where
  | data : JVal → Event
  | fail : String → Event
  | done : Event

/-- A buffered collector call: the one-argument form adds a data payload,
the two-argument form a `(template, url)` task (the source distinguishes
them by `args.length`; the spec's design notes themselves replace the
variadic call by this tagged variant). -/
inductive AddCall where
  | data : JVal → AddCall
  | task : String → String → AddCall

/-- The observable behaviour of one template invocation on a url: either
its promise resolves after having made these collector calls in this
order, or it rejects (or throws) with an error, in which case the calls
it buffered before failing are `discarded` wholesale. -/
inductive TemplateOutcome where
  | success : List AddCall → TemplateOutcome
  | failure : (discarded : List AddCall) → (err : String) → TemplateOutcome

/-- Pure model of a user template function. -/
def TemplateFn : Type := String → TemplateOutcome

/-- An entry of the `taskQueue`: the captured node reference (as its path
in the tree) and the `template`/`url` arguments of `addTask`. -/
structure QueuedTask where
  path : List Nat
  template : String
  url : String
deriving DecidableEq

structure SchedState where
  options : Options
  crawlTree : Option Node
  urlSet : List String
  taskQueue : List QueuedTask
  templates : List (String × TemplateFn)
  stopped : Bool
  events : List Event
  startUsed : Bool

/-- The node of the current tree at a path. -/
def treeNodeAt (s : SchedState) (p : List Nat) : Option Node :=
  s.crawlTree.bind (nodeAt p)

/-- `this.addTask(node, template, url)`: pushes the task closure onto the
worker queue. -/
def addTask (s : SchedState) (p : List Nat) (template url : String) : SchedState :=
  { s with taskQueue := s.taskQueue ++ [⟨p, template, url⟩] }

/-- The number of children of the owner, i.e. the index at which the next
pushed child will live. -/
def childrenCountAt (tree : Option Node) (p : List Nat) : Nat :=
  match tree.bind (nodeAt p) with
  | some (.task _ _ _ cs) => cs.length
  | _ => 0

/-- One iteration of the replay loop inside `exec` (from
`createAddFunc`): a one-argument call appends a data node and schedules a
`data` event; a two-argument call is dropped when deduplication is on and
the url was already seen, and otherwise records the url, creates a task
node (appended to the owner, or installed as the tree root when the owner
is `null`) and dispatches it via `addTask`.

The `data`-call-with-null-owner case returns the state unchanged: it is
unreachable, since the only commit with a `null` owner is the one issued
by `startWithEntry`, which replays exactly one task call (on this input
the source itself would throw on `null.children`). -/
def execStep (owner : Option (List Nat)) (s : SchedState) : AddCall → SchedState
  | .data d =>
    match owner with
    | none => s
    | some p =>
      { s with
        crawlTree := s.crawlTree.map (updateAt p (appendChild (createDataNode d)))
        events := s.events ++ [Event.data d] }
  | .task tpl u =>
    if s.options.distinct && s.urlSet.contains u then s
    else
      let s1 := { s with urlSet := s.urlSet ++ [u] }
      match owner with
      | none =>
        addTask { s1 with crawlTree := some (createTaskNode tpl u) } [] tpl u
      | some p =>
        let idx := childrenCountAt s.crawlTree p
        addTask
          { s1 with
            crawlTree := s1.crawlTree.map (updateAt p (appendChild (createTaskNode tpl u))) }
          (p ++ [idx]) tpl u

/-- `exec` from `createAddFunc`: replay the whole buffered queue, in call
order, as one synchronous (hence atomic) commit. -/
def execCommit (owner : Option (List Nat)) (calls : List AddCall) (s : SchedState) : SchedState :=
  calls.foldl (execStep owner) s

/-- `node.state = st`. -/
def setStateAt (s : SchedState) (p : List Nat) (st : TaskState) : SchedState :=
  { s with crawlTree := s.crawlTree.map (updateAt p (setState st)) }

/-- The async task body built inside `addTask`, run by the worker pool,
as the atomic effect it has on the scheduler state once it settles:
return immediately when stopped; treat an unregistered template name as a
failure; on success replay the buffered collector calls and mark the node
`done`; on any failure mark the node `fail` and emit a `fail` event (the
buffered calls of a failed invocation are never replayed). -/
def runTask (s : SchedState) (t : QueuedTask) : SchedState :=
  if s.stopped then s
  else
    match List.lookup t.template s.templates with
    | none =>
      { setStateAt s t.path .fail with
        events := s.events ++ [Event.fail ("Templete " ++ t.template ++ " does not exist")] }
    | some f =>
      match f t.url with
      | .success calls => setStateAt (execCommit (some t.path) calls s) t.path .done
      | .failure _ err =>
        { setStateAt s t.path .fail with events := s.events ++ [Event.fail err] }

/-- `register`: binds a template name, refusing an already-bound name. -/
def register (s : SchedState) (template : String) (f : TemplateFn) :
    Except String SchedState :=
  match List.lookup template s.templates with
  | some _ => .error ("Template " ++ template ++ " has been registered")
  | none => .ok { s with templates := (template, f) :: s.templates }

/-- `getResults` on the scheduler (reads `this.crawlTree`). -/
def getResultsOf (s : SchedState) : Except String (List JVal × Bool) :=
  getResults s.crawlTree

/-- `snapshot()`: `JSON.parse(JSON.stringify(this.crawlTree))`, i.e. the
JSON round-trip of the current tree (`null` round-trips to `null`). -/
def snapshot (s : SchedState) : Option Node :=
  s.crawlTree.bind (fun t => decodeNode (encodeNode t))

/-- `stop()`: set the stop flag. -/
def stop (s : SchedState) : SchedState :=
  { s with stopped := true }

/-- `onDone`: fire the (asynchronous) `done` event unless stopped. -/
def onDone (s : SchedState) : SchedState :=
  if s.stopped then s else { s with events := s.events ++ [Event.done] }

/-- `startWithEntry`: a synthetic commit with a `null` owner replaying the
single call `add(template, url)`. -/
def startWithEntry (template url : String) (s : SchedState) : SchedState :=
  execCommit none [AddCall.task template url] s

mutual
/-- The state resets applied during the resume traversal: every task node
not in `done` state goes back to `waiting` (children and all other fields
untouched; the source mutates states in place while traversing, which
never changes what the traversal visits). -/
def resetNode : Node → Node
  | .data d => .data d
  | .task st tpl u cs =>
      .task (if st = .done then .done else .waiting) tpl u (resetList cs)

def resetList : List Node → List Node
  | [] => []
  | c :: cs => resetNode c :: resetList cs
end

/-- The re-dispatch performed for a visited node: task nodes not in
`done` state are queued again (after their state reset). -/
def taskEntryOf : List Nat × Node → Option QueuedTask
  | (p, .task st tpl u _) => if st = .done then none else some ⟨p, tpl, u⟩
  | (_, .data _) => none

/-- The dedup-registry rebuild for a visited node: every task node
records its url. -/
def taskUrlOf : List Nat × Node → Option String
  | (_, .task _ _ u _) => some u
  | (_, .data _) => none

/-- `startWithSnapshot`: deep-copy the snapshot into `crawlTree` (the
JSON round-trip of a tree is the tree itself, `decode_encode`), then
pre-order traverse it, recording every task node's url into the dedup
registry and re-dispatching (state reset to `waiting`) every task node
not in `done` state; when no such node exists, fire `onDone`. -/
def startWithSnapshot (snapshot0 : Node) (s : SchedState) : SchedState :=
  let visits := preorderPaths snapshot0 []
  let entries := visits.filterMap taskEntryOf
  let s1 := { s with
    crawlTree := some (resetNode snapshot0)
    urlSet := s.urlSet ++ visits.filterMap taskUrlOf
    taskQueue := s.taskQueue ++ entries }
  if entries.isEmpty then onDone s1 else s1

/-- The argument shapes of the variadic `start`: one argument (a
snapshot), two arguments (template and url), or any other argument count
(neither branch of the source runs; behaviour does not depend on the
argument values, only on the count). -/
inductive StartArgs where
  | snap : Node → StartArgs
  | entry : String → String → StartArgs
  | other : Nat → StartArgs

/-- After the first call the source attaches the `empty` listener and
replaces `this.start` with a throwing closure; both are recorded by the
`startUsed` flag. -/
def markStarted (s : SchedState) : SchedState :=
  { s with startUsed := true }

/-- `start`: dispatch on the argument count, then attach the completion
listener and disable further calls.  A second call always fails. -/
def start (s : SchedState) (args : StartArgs) : Except String SchedState :=
  if s.startUsed then .error "Cannot call start again"
  else .ok (markStarted (match args with
    | .snap t => startWithSnapshot t s
    | .entry tpl url => startWithEntry tpl url s
    | .other _ => s))

/-- The state built by the constructor. -/
def initState (o : OptsArg) : SchedState :=
  { options := resolveOptions o
    crawlTree := none
    urlSet := []
    taskQueue := []
    templates := []
    stopped := false
    events := []
    startUsed := false }

/-- The children a successful invocation commits, computed from its
collector calls in call order: each data call contributes a data node,
each task call a fresh `waiting` task node unless deduplication drops it
(the url set is threaded through, so a url is also deduplicated against
earlier calls of the same commit). -/
def commitKids (distinct : Bool) : List String → List AddCall → List Node
  | _, [] => []
  | us, .data d :: rest => createDataNode d :: commitKids distinct us rest
  | us, .task tpl u :: rest =>
      if distinct && us.contains u then commitKids distinct us rest
      else createTaskNode tpl u :: commitKids distinct (us ++ [u]) rest

/-- Well-formedness of a tree passed to the snapshot form of `start`.
The source documents that argument as "the snapshot returned by the
`snapshot` method"; any tree produced by this scheduler satisfies both
conditions (they are the invariants proved below): task nodes not in
`done` state have no children, and, under deduplication, no two task
nodes share a url. -/
def SnapOK (distinct : Bool) (t : Node) : Prop :=
  (∀ p st tpl u cs, nodeAt p t = some (.task st tpl u cs) → st ≠ .done → cs = []) ∧
  (distinct = true → ∀ p q st st2 tpl tpl2 u cs cs2,
    nodeAt p t = some (.task st tpl u cs) →
    nodeAt q t = some (.task st2 tpl2 u cs2) → p = q)

/-- One atomic step of a scheduler's life: a successful `register`, the
first `start` call (in its three argument shapes), the settling of one
queued task body (any queued task may settle next: the worker pool runs
up to `thread` bodies concurrently, but each body's effect is one
synchronous block), a `stop` call, and the worker pool's `empty` signal
(only delivered once a run has attached the listener and the queue is
drained). -/
inductive Step : SchedState → SchedState → Prop where
  | registerOk (s : SchedState) (template : String) (f : TemplateFn)
      (s2 : SchedState) : register s template f = .ok s2 → Step s s2
  | startEntry (s : SchedState) (template url : String) :
      s.startUsed = false → Step s (markStarted (startWithEntry template url s))
  | startSnap (s : SchedState) (snapshot0 : Node) :
      s.startUsed = false → SnapOK s.options.distinct snapshot0 →
      Step s (markStarted (startWithSnapshot snapshot0 s))
  | startOther (s : SchedState) :
      s.startUsed = false → Step s (markStarted s)
  | runStep (s : SchedState) (pre post : List QueuedTask) (t : QueuedTask) :
      s.taskQueue = pre ++ t :: post →
      Step s (runTask { s with taskQueue := pre ++ post } t)
  | stopStep (s : SchedState) : Step s (stop s)
  | emptyStep (s : SchedState) :
      s.startUsed = true → s.taskQueue = [] → Step s (onDone s)

/-- States a scheduler instance can actually be in. -/
def Reachable (s : SchedState) : Prop :=
  ∃ o, Relation.ReflTransGen Step (initState o) s

/-! ## The local view of a node

All tree mutations of the source are `updateAt p f` for functions `f`
that preserve the creation identity of the node they land on.  The local
view of a node — its constructor, its own fields, and the creation
identities of its direct children — is what the invariants talk about;
an update at `p` preserves the local view everywhere except at `p` and
strictly below `p`. -/

inductive LView where
  | dataV : JVal → LView
  | taskV : TaskState → String → String → List NodeId → LView

def lview : Node → LView
  | .data d => .dataV d
  | .task st tpl u cs => .taskV st tpl u (cs.map localId)

theorem modifyIdx_nil (i : Nat) (f : Node → Node) : modifyIdx i f [] = [] := by
  cases i <;> rfl

theorem lview_updateAt_of_ne_nil (r : List Nat) (f : Node → Node) (m : Node)
    (hr : r ≠ []) (hf : ∀ n, localId (f n) = localId n) :
    lview (updateAt r f m) = lview m := by
  cases r with
  | nil => exact absurd rfl hr
  | cons i r2 =>
    cases m with
    | data d => rfl
    | task st tpl u cs =>
      simp only [updateAt, lview, LView.taskV.injEq, true_and]
      exact modifyIdx_map_of_preserve i _ (localId_updateAt r2 f hf) cs

theorem eq_of_lview_task (n : Node) (st : TaskState) (tpl u : String)
    (ids : List NodeId) (h : lview n = .taskV st tpl u ids) :
    ∃ cs, n = .task st tpl u cs ∧ cs.map localId = ids := by
  cases n with
  | data d => simp [lview] at h
  | task st2 tpl2 u2 cs =>
    simp only [lview, LView.taskV.injEq] at h
    obtain ⟨h1, h2, h3, h4⟩ := h
    exact ⟨cs, by rw [h1, h2, h3], h4⟩

theorem lview_transfer {o1 o2 : Option Node}
    (h : o1.map lview = o2.map lview) (st : TaskState) (tpl u : String)
    (cs : List Node) (h1 : o1 = some (.task st tpl u cs)) :
    ∃ cs2, o2 = some (.task st tpl u cs2) ∧ cs2.map localId = cs.map localId := by
  subst h1
  cases o2 with
  | none => simp at h
  | some n2 =>
    simp only [Option.map_some', Option.some.injEq] at h
    obtain ⟨cs2, hn2, hids⟩ := eq_of_lview_task n2 st tpl u (cs.map localId)
      (by rw [← h]; rfl)
    exact ⟨cs2, by rw [hn2], hids⟩

/-- Master case analysis for reading any path of an updated tree, for
updates whose function preserves creation identities: the updated path
itself, a strict descendant of it, or a path whose local view is
untouched. -/
theorem nodeAt_updateAt_cases (p : List Nat) (f : Node → Node)
    (hf : ∀ n, localId (f n) = localId n) (T n0 : Node)
    (h : nodeAt p T = some n0) (q : List Nat) :
    (q = p ∧ nodeAt q (updateAt p f T) = some (f n0)) ∨
    (∃ r, r ≠ [] ∧ q = p ++ r ∧
      nodeAt q (updateAt p f T) = nodeAt r (f n0) ∧ nodeAt q T = nodeAt r n0) ∨
    (q ≠ p ∧ (¬∃ r, q = p ++ r) ∧
      (nodeAt q (updateAt p f T)).map lview = (nodeAt q T).map lview) := by
  rcases path_trichotomy p q with ⟨r, hq⟩ | ⟨r, hr, hp⟩ | ⟨a, i, j, r1, r2, hij, hp, hq⟩
  · cases r with
    | nil =>
      left
      rw [List.append_nil] at hq
      exact ⟨hq, by rw [hq]; exact nodeAt_updateAt_self p f T n0 h⟩
    | cons i r2 =>
      right; left
      refine ⟨i :: r2, by simp, hq, ?_, ?_⟩
      · rw [hq]; exact nodeAt_updateAt_append p (i :: r2) f T n0 h
      · rw [hq, nodeAt_append, h]; rfl
  · right; right
    have hqp : q ≠ p := by
      intro he
      rw [he] at hp
      have hlen : r.length = 0 := by
        have h2 := congrArg List.length hp
        simp only [List.length_append] at h2
        omega
      exact hr (List.length_eq_zero.mp hlen)
    refine ⟨hqp, ?_, ?_⟩
    · rintro ⟨r2, hr2⟩
      rw [hr2, List.append_assoc] at hp
      have hlen : r.length = 0 := by
        have h2 := congrArg List.length hp
        simp only [List.length_append] at h2
        omega
      exact hr (List.length_eq_zero.mp hlen)
    · rw [hp, nodeAt_updateAt_above]
      cases hqT : nodeAt q T with
      | none => rfl
      | some m => simp [lview_updateAt_of_ne_nil r f m hr hf]
  · right; right
    have hqp : q ≠ p := by
      intro he
      rw [hp, hq] at he
      have := List.append_cancel_left he
      simp only [List.cons.injEq] at this
      exact hij this.1.symm
    refine ⟨hqp, ?_, ?_⟩
    · rintro ⟨r3, hr3⟩
      rw [hp, List.append_assoc] at hr3
      rw [hq] at hr3
      have := List.append_cancel_left hr3
      simp only [List.cons_append, List.cons.injEq] at this
      exact hij this.1.symm
    · rw [hp, hq, nodeAt_updateAt_incomp a i j r1 r2 hij f T]

theorem localId_appendChild (c : Node) (n : Node) :
    localId (appendChild c n) = localId n := by
  cases n <;> rfl

theorem nodeAt_setState_cons (i : Nat) (r : List Nat) (st0 : TaskState) (n : Node) :
    nodeAt (i :: r) (setState st0 n) = nodeAt (i :: r) n := by
  cases n <;> rfl

theorem contains_iff (us : List String) (u : String) :
    us.contains u = true ↔ u ∈ us := by
  simp

/-- Reading any path after appending a (childless) node to the children
of the task node at `p`: either the grown owner, the fresh child at its
fresh path, or a node whose local view existed unchanged. -/
theorem nodeAt_after_append (T : Node) (p : List Nat) (st0 : TaskState)
    (tpl u : String) (cs : List Node) (c0 : Node)
    (hT : nodeAt p T = some (.task st0 tpl u cs))
    (hc0 : ∀ i (r : List Nat), nodeAt (i :: r) c0 = none)
    (q : List Nat) (n : Node)
    (hq : nodeAt q (updateAt p (appendChild c0) T) = some n) :
    (q = p ∧ n = .task st0 tpl u (cs ++ [c0])) ∨
    (q = p ++ [cs.length] ∧ n = c0 ∧ nodeAt q T = none) ∨
    (q ≠ p ∧ ∃ m, nodeAt q T = some m ∧ lview m = lview n) := by
  rcases nodeAt_updateAt_cases p (appendChild c0) (localId_appendChild c0) T _ hT q
    with ⟨hqp, he⟩ | ⟨r, hrne, hqe, h1, h2⟩ | ⟨hqp, _, hmap⟩
  · left
    refine ⟨hqp, ?_⟩
    rw [he] at hq
    exact (Option.some.inj hq).symm
  · have hqnep : q ≠ p := by
      intro he
      rw [he] at hqe
      have h3 := congrArg List.length hqe
      rw [List.length_append] at h3
      have h4 : r.length = 0 := by omega
      exact hrne (List.length_eq_zero.mp h4)
    cases r with
    | nil => exact absurd rfl hrne
    | cons i r2 =>
      simp only [appendChild, nodeAt] at h1
      simp only [nodeAt] at h2
      rcases Nat.lt_trichotomy i cs.length with hlt | heq | hgt
      · right; right
        refine ⟨hqnep, n, ?_, rfl⟩
        rw [h2, ← List.getElem?_append_left hlt, ← h1, hq]
      · subst heq
        rw [List.getElem?_concat_length, Option.some_bind] at h1
        cases r2 with
        | nil =>
          right; left
          rw [h1] at hq
          simp only [nodeAt, Option.some.injEq] at hq
          refine ⟨by rw [hqe], hq.symm, ?_⟩
          rw [h2]
          simp [List.getElem?_eq_none (le_refl cs.length)]
        | cons j r3 =>
          rw [hc0 j r3] at h1
          rw [h1] at hq
          exact absurd hq (by simp)
      · rw [List.getElem?_eq_none (by simp; omega), Option.none_bind] at h1
        rw [h1] at hq
        exact absurd hq (by simp)
  · right; right
    refine ⟨hqp, ?_⟩
    rw [hq] at hmap
    obtain ⟨m, hm, hlv⟩ := Option.map_eq_some'.mp hmap.symm
    exact ⟨m, hm, hlv⟩

/-- A node away from the append point survives the append with its local
view intact. -/
theorem nodeAt_after_append_fwd (T : Node) (p : List Nat) (st0 : TaskState)
    (tpl u : String) (cs : List Node) (c0 : Node)
    (hT : nodeAt p T = some (.task st0 tpl u cs))
    (q : List Nat) (m : Node) (hqm : nodeAt q T = some m) (hqp : q ≠ p) :
    ∃ n, nodeAt q (updateAt p (appendChild c0) T) = some n ∧ lview n = lview m := by
  rcases nodeAt_updateAt_cases p (appendChild c0) (localId_appendChild c0) T _ hT q
    with ⟨hqe, _⟩ | ⟨r, hrne, hqe, h1, h2⟩ | ⟨_, _, hmap⟩
  · exact absurd hqe hqp
  · cases r with
    | nil => exact absurd rfl hrne
    | cons i r2 =>
      simp only [appendChild, nodeAt] at h1
      simp only [nodeAt] at h2
      cases hg : cs[i]? with
      | none =>
        rw [hg, Option.none_bind] at h2
        rw [h2] at hqm
        exact absurd hqm (by simp)
      | some c =>
        have hlt : i < cs.length := by
          by_contra hge
          rw [List.getElem?_eq_none (by omega)] at hg
          exact absurd hg (by simp)
        rw [List.getElem?_append_left hlt, hg, Option.some_bind] at h1
        rw [hg, Option.some_bind] at h2
        rw [← h2, hqm] at h1
        exact ⟨m, h1, rfl⟩
  · rw [hqm] at hmap
    obtain ⟨n, hn, hlv⟩ := Option.map_eq_some'.mp hmap
    exact ⟨n, hn, hlv⟩

/-- Reading any path after a state assignment at `p`: the reassigned node
itself, or a node whose local view existed unchanged. -/
theorem nodeAt_after_setState (T : Node) (p : List Nat) (st0 : TaskState)
    (n0 : Node) (hT : nodeAt p T = some n0) (q : List Nat) (n : Node)
    (hq : nodeAt q (updateAt p (setState st0) T) = some n) :
    (q = p ∧ n = setState st0 n0) ∨
    (q ≠ p ∧ ∃ m, nodeAt q T = some m ∧ lview m = lview n) := by
  rcases nodeAt_updateAt_cases p (setState st0) (localId_setState st0) T _ hT q
    with ⟨hqp, he⟩ | ⟨r, hrne, hqe, h1, h2⟩ | ⟨hqp, _, hmap⟩
  · left
    refine ⟨hqp, ?_⟩
    rw [he] at hq
    exact (Option.some.injEq _ _ ▸ hq).symm
  · have hqnep : q ≠ p := by
      intro he
      rw [he] at hqe
      have h3 := congrArg List.length hqe
      rw [List.length_append] at h3
      have h4 : r.length = 0 := by omega
      exact hrne (List.length_eq_zero.mp h4)
    right
    refine ⟨hqnep, n, ?_, rfl⟩
    cases r with
    | nil => exact absurd rfl hrne
    | cons i r2 =>
      rw [nodeAt_setState_cons i r2 st0 n0] at h1
      rw [h2, ← h1, hq]
  · right
    refine ⟨hqp, ?_⟩
    rw [hq] at hmap
    obtain ⟨m, hm, hlv⟩ := Option.map_eq_some'.mp hmap.symm
    exact ⟨m, hm, hlv⟩

/-- A node away from a state assignment survives it with its local view
intact. -/
theorem nodeAt_after_setState_fwd (T : Node) (p : List Nat) (st0 : TaskState)
    (n0 : Node) (hT : nodeAt p T = some n0) (q : List Nat) (m : Node)
    (hqm : nodeAt q T = some m) (hqp : q ≠ p) :
    ∃ n, nodeAt q (updateAt p (setState st0) T) = some n ∧ lview n = lview m := by
  rcases nodeAt_updateAt_cases p (setState st0) (localId_setState st0) T _ hT q
    with ⟨hqe, _⟩ | ⟨r, hrne, hqe, h1, h2⟩ | ⟨_, _, hmap⟩
  · exact absurd hqe hqp
  · cases r with
    | nil => exact absurd rfl hrne
    | cons i r2 =>
      rw [nodeAt_setState_cons i r2 st0 n0] at h1
      rw [← h2, hqm] at h1
      exact ⟨m, h1, rfl⟩
  · rw [hqm] at hmap
    obtain ⟨n, hn, hlv⟩ := Option.map_eq_some'.mp hmap
    exact ⟨n, hn, hlv⟩

/-! ## Run invariants -/

/-- The invariant of every reachable scheduler state:

* task nodes not in `done` state have no children (the spec's atomic
  children-population invariant);
* every task node's url is in the dedup registry;
* under deduplication no two task nodes share a url;
* every queued task body points (by path) at a `waiting` node with no
  children, no two queued bodies share a node, and before the first
  `start` call the tree, the queue and the registry are empty. -/
structure WFState (s : SchedState) : Prop where
  nonDoneEmpty : ∀ p st tpl u cs, treeNodeAt s p = some (.task st tpl u cs) →
    st ≠ .done → cs = []
  urlsRecorded : ∀ p st tpl u cs, treeNodeAt s p = some (.task st tpl u cs) →
    u ∈ s.urlSet
  urlsDistinct : s.options.distinct = true → ∀ p q st st2 tpl tpl2 u cs cs2,
    treeNodeAt s p = some (.task st tpl u cs) →
    treeNodeAt s q = some (.task st2 tpl2 u cs2) → p = q
  queueOK : ∀ e ∈ s.taskQueue,
    treeNodeAt s e.path = some (.task .waiting e.template e.url [])
  queuePaths : s.taskQueue.Pairwise (fun a b => a.path ≠ b.path)
  preStart : s.startUsed = false →
    s.crawlTree = none ∧ s.taskQueue = [] ∧ s.urlSet = []

/-- The invariant holding at every intermediate state of one `exec`
commit with owner node at `p`: as `WFState`, except that the owner (the
popped, currently executing task) is a `waiting` node whose children are
the calls replayed so far, and the owner is not in the queue.  These
intermediate states exist only inside the synchronous commit and are
never observable. -/
structure MidInv (p : List Nat) (s : SchedState) : Prop where
  owner : ∃ tpl u cs, treeNodeAt s p = some (.task .waiting tpl u cs)
  nonDoneEmpty : ∀ q st tpl u cs, q ≠ p →
    treeNodeAt s q = some (.task st tpl u cs) → st ≠ .done → cs = []
  urlsRecorded : ∀ q st tpl u cs, treeNodeAt s q = some (.task st tpl u cs) →
    u ∈ s.urlSet
  urlsDistinct : s.options.distinct = true → ∀ q r st st2 tpl tpl2 u cs cs2,
    treeNodeAt s q = some (.task st tpl u cs) →
    treeNodeAt s r = some (.task st2 tpl2 u cs2) → q = r
  queueOK : ∀ e ∈ s.taskQueue,
    treeNodeAt s e.path = some (.task .waiting e.template e.url [])
  queuePaths : s.taskQueue.Pairwise (fun a b => a.path ≠ b.path)
  queueAway : ∀ e ∈ s.taskQueue, e.path ≠ p

/-- The urls a commit records into the registry, in order (mirrors the
threading of `commitKids`). -/
def admittedUrls (distinct : Bool) : List String → List AddCall → List String
  | _, [] => []
  | us, .data _ :: rest => admittedUrls distinct us rest
  | us, .task _ u :: rest =>
      if distinct && us.contains u then admittedUrls distinct us rest
      else u :: admittedUrls distinct (us ++ [u]) rest

theorem commitKids_cons (d : Bool) (us : List String) (c : AddCall)
    (rest : List AddCall) :
    commitKids d us (c :: rest) =
      commitKids d us [c] ++ commitKids d (us ++ admittedUrls d us [c]) rest := by
  cases c with
  | data v => simp [commitKids, admittedUrls]
  | task tpl u =>
    by_cases hd : d = true ∧ u ∈ us <;>
      simp [commitKids, admittedUrls, hd]

theorem admittedUrls_cons (d : Bool) (us : List String) (c : AddCall)
    (rest : List AddCall) :
    admittedUrls d us (c :: rest) =
      admittedUrls d us [c] ++ admittedUrls d (us ++ admittedUrls d us [c]) rest := by
  cases c with
  | data v => simp [admittedUrls]
  | task tpl u =>
    by_cases hd : d = true ∧ u ∈ us <;>
      simp [admittedUrls, hd]

theorem execStep_data (p : List Nat) (s : SchedState) (d : JVal) :
    execStep (some p) s (.data d) =
      { s with
        crawlTree := s.crawlTree.map (updateAt p (appendChild (createDataNode d)))
        events := s.events ++ [Event.data d] } := rfl

theorem execStep_task_skip (p : Option (List Nat)) (s : SchedState)
    (tpl u : String) (h : s.options.distinct = true ∧ u ∈ s.urlSet) :
    execStep p s (.task tpl u) = s := by
  cases p <;> simp [execStep, h]

theorem execStep_task_add (p : List Nat) (s : SchedState) (tpl u : String)
    (h : ¬(s.options.distinct = true ∧ u ∈ s.urlSet)) :
    execStep (some p) s (.task tpl u) =
      { s with
        urlSet := s.urlSet ++ [u]
        crawlTree := s.crawlTree.map (updateAt p (appendChild (createTaskNode tpl u)))
        taskQueue := s.taskQueue ++ [⟨p ++ [childrenCountAt s.crawlTree p], tpl, u⟩] } := by
  simp [execStep, h, addTask]

theorem execStep_task_root (s : SchedState) (tpl u : String)
    (h : ¬(s.options.distinct = true ∧ u ∈ s.urlSet)) :
    execStep none s (.task tpl u) =
      { s with
        urlSet := s.urlSet ++ [u]
        crawlTree := some (createTaskNode tpl u)
        taskQueue := s.taskQueue ++ [⟨[], tpl, u⟩] } := by
  simp [execStep, h, addTask]

theorem nodeAt_createDataNode (d : JVal) (i : Nat) (r : List Nat) :
    nodeAt (i :: r) (createDataNode d) = none := rfl

theorem nodeAt_createTaskNode (tpl u : String) (i : Nat) (r : List Nat) :
    nodeAt (i :: r) (createTaskNode tpl u) = none := by
  simp [createTaskNode, nodeAt]

theorem treeNodeAt_eq (s : SchedState) (T : Node) (hcr : s.crawlTree = some T)
    (q : List Nat) : treeNodeAt s q = nodeAt q T := by
  rw [treeNodeAt, hcr, Option.some_bind]

/-- One replayed collector call preserves the mid-commit invariant, grows
the owner's children by exactly the nodes `commitKids` prescribes for
that call, and extends the registry by exactly the urls `admittedUrls`
prescribes; all other scheduler fields are untouched. -/
theorem execStep_mid (p : List Nat) (s : SchedState) (c : AddCall)
    (tpl u : String) (cs : List Node) (hmid : MidInv p s)
    (hown : treeNodeAt s p = some (.task .waiting tpl u cs)) :
    MidInv p (execStep (some p) s c) ∧
    treeNodeAt (execStep (some p) s c) p =
      some (.task .waiting tpl u (cs ++ commitKids s.options.distinct s.urlSet [c])) ∧
    (execStep (some p) s c).options = s.options ∧
    (execStep (some p) s c).urlSet =
      s.urlSet ++ admittedUrls s.options.distinct s.urlSet [c] ∧
    (execStep (some p) s c).stopped = s.stopped ∧
    (execStep (some p) s c).templates = s.templates ∧
    (execStep (some p) s c).startUsed = s.startUsed := by
  obtain ⟨T, hcr⟩ : ∃ T, s.crawlTree = some T := by
    cases hc2 : s.crawlTree with
    | none => rw [treeNodeAt, hc2] at hown; simp at hown
    | some T => exact ⟨T, rfl⟩
  have htn := treeNodeAt_eq s T hcr
  have hT : nodeAt p T = some (.task .waiting tpl u cs) := by
    rw [← htn p]; exact hown
  cases c with
  | data d =>
    set s2 := execStep (some p) s (.data d) with hs2
    rw [execStep_data] at hs2
    have h_tree : s2.crawlTree =
        some (updateAt p (appendChild (createDataNode d)) T) := by
      rw [hs2]; show s.crawlTree.map _ = _; rw [hcr]; rfl
    have h_url : s2.urlSet = s.urlSet := by rw [hs2]
    have h_queue : s2.taskQueue = s.taskQueue := by rw [hs2]
    have htn2 := treeNodeAt_eq s2 _ h_tree
    have hc0 : ∀ i (r : List Nat), nodeAt (i :: r) (createDataNode d) = none :=
      fun i r => rfl
    have hself := nodeAt_updateAt_self p (appendChild (createDataNode d)) T _ hT
    have back : ∀ q2 st4 tpl4 u4 cs4,
        nodeAt q2 (updateAt p (appendChild (createDataNode d)) T) =
          some (.task st4 tpl4 u4 cs4) →
        ∃ st5 cs5, nodeAt q2 T = some (.task st5 tpl4 u4 cs5) := by
      intro q2 st4 tpl4 u4 cs4 hq2
      rcases nodeAt_after_append T p _ tpl u cs _ hT hc0 q2 _ hq2 with
        ⟨he, hn⟩ | ⟨_, hn, _⟩ | ⟨_, m, hm, hlv⟩
      · simp only [Node.task.injEq] at hn
        obtain ⟨hst, htp, hu, hcs⟩ := hn
        subst he; subst htp; subst hu
        exact ⟨.waiting, cs, hT⟩
      · simp [createDataNode] at hn
      · obtain ⟨cs5, hm2, hids⟩ := eq_of_lview_task m st4 tpl4 u4 _ hlv
        exact ⟨st4, cs5, hm2 ▸ hm⟩
    refine ⟨⟨?_, ?_, ?_, ?_, ?_, ?_, ?_⟩, ?_, by rw [hs2], ?_, by rw [hs2],
      by rw [hs2], by rw [hs2]⟩
    · exact ⟨tpl, u, cs ++ [createDataNode d], by rw [htn2 p]; exact hself⟩
    · intro q st2 tpl2 u2 cs2 hqp hnode hst
      rw [htn2 q] at hnode
      rcases nodeAt_after_append T p _ tpl u cs _ hT hc0 q _ hnode with
        ⟨he, _⟩ | ⟨_, hn, _⟩ | ⟨_, m, hm, hlv⟩
      · exact absurd he hqp
      · simp [createDataNode] at hn
      · obtain ⟨cs3, hm2, hids⟩ := eq_of_lview_task m st2 tpl2 u2 _ hlv
        have h5 := hmid.nonDoneEmpty q st2 tpl2 u2 cs3 hqp
          (by rw [htn q]; exact hm2 ▸ hm) hst
        rw [h5] at hids
        exact List.map_eq_nil_iff.mp hids.symm
    · intro q st2 tpl2 u2 cs2 hnode
      rw [htn2 q] at hnode
      rw [h_url]
      rcases back q st2 tpl2 u2 cs2 hnode with ⟨st5, cs5, hm⟩
      exact hmid.urlsRecorded q st5 tpl2 u2 cs5 (by rw [htn q]; exact hm)
    · intro hdist q r st2 st3 tpl2 tpl3 u2 cs2 cs3 hq hr
      rw [htn2 q] at hq
      rw [htn2 r] at hr
      obtain ⟨st5, cs5, hq5⟩ := back q st2 tpl2 u2 cs2 hq
      obtain ⟨st6, cs6, hr6⟩ := back r st3 tpl3 u2 cs3 hr
      exact hmid.urlsDistinct (by rw [← show s2.options = s.options from by rw [hs2]]; exact hdist)
        q r st5 st6 tpl2 tpl3 u2 cs5 cs6 (by rw [htn q]; exact hq5)
        (by rw [htn r]; exact hr6)
    · intro e he
      rw [h_queue] at he
      have h1 := hmid.queueOK e he
      have h2 := hmid.queueAway e he
      rw [htn e.path] at h1
      obtain ⟨n, hn, hlv⟩ :=
        nodeAt_after_append_fwd T p _ tpl u cs (createDataNode d) hT e.path _ h1 h2
      obtain ⟨cs4, hn2, hids⟩ := eq_of_lview_task n .waiting e.template e.url
        (List.map localId []) (by rw [hlv]; rfl)
      have hcs4 : cs4 = [] := List.map_eq_nil_iff.mp (hids.trans rfl)
      rw [htn2 e.path, hn, hn2, hcs4]
    · rw [h_queue]; exact hmid.queuePaths
    · intro e he
      rw [h_queue] at he
      exact hmid.queueAway e he
    · rw [htn2 p]
      exact hself
    · rw [h_url]
      simp [admittedUrls]
  | task tpl2 u2 =>
    by_cases hd : s.options.distinct = true ∧ u2 ∈ s.urlSet
    · rw [execStep_task_skip _ _ _ _ hd]
      refine ⟨hmid, ?_, rfl, ?_, rfl, rfl, rfl⟩
      · have hk : commitKids s.options.distinct s.urlSet [AddCall.task tpl2 u2] = [] := by
          simp [commitKids, hd]
        rw [hk, List.append_nil]
        exact hown
      · have ha : admittedUrls s.options.distinct s.urlSet [AddCall.task tpl2 u2] = [] := by
          simp [admittedUrls, hd]
        rw [ha, List.append_nil]
    · set s2 := execStep (some p) s (.task tpl2 u2) with hs2
      rw [execStep_task_add p s tpl2 u2 hd] at hs2
      have hidx : childrenCountAt s.crawlTree p = cs.length := by
        rw [childrenCountAt, hcr]
        simp [hT]
      have h_tree : s2.crawlTree =
          some (updateAt p (appendChild (createTaskNode tpl2 u2)) T) := by
        rw [hs2]; show s.crawlTree.map _ = _; rw [hcr]; rfl
      have h_url : s2.urlSet = s.urlSet ++ [u2] := by rw [hs2]
      have h_queue : s2.taskQueue =
          s.taskQueue ++ [⟨p ++ [cs.length], tpl2, u2⟩] := by
        rw [hs2, hidx]
      have htn2 := treeNodeAt_eq s2 _ h_tree
      have hc0 := nodeAt_createTaskNode tpl2 u2
      have hself := nodeAt_updateAt_self p (appendChild (createTaskNode tpl2 u2)) T _ hT
      have hnewchild : nodeAt (p ++ [cs.length])
          (updateAt p (appendChild (createTaskNode tpl2 u2)) T) =
          some (createTaskNode tpl2 u2) := by
        rw [nodeAt_updateAt_append p [cs.length] _ T _ hT]
        show ((cs ++ [createTaskNode tpl2 u2])[cs.length]?).bind (nodeAt []) = _
        rw [List.getElem?_concat_length]
        rfl
      have holdnone : nodeAt (p ++ [cs.length]) T = none := by
        rw [nodeAt_append, hT, Option.some_bind]
        show (cs[cs.length]?).bind (nodeAt []) = none
        rw [List.getElem?_eq_none (le_refl cs.length)]
        rfl
      have back : ∀ q2 st4 tpl4 u4 cs4,
          nodeAt q2 (updateAt p (appendChild (createTaskNode tpl2 u2)) T) =
            some (.task st4 tpl4 u4 cs4) →
          (q2 = p ++ [cs.length] ∧ u4 = u2) ∨
          (∃ st5 cs5, nodeAt q2 T = some (.task st5 tpl4 u4 cs5)) := by
        intro q2 st4 tpl4 u4 cs4 hq2
        rcases nodeAt_after_append T p _ tpl u cs _ hT hc0 q2 _ hq2 with
          ⟨he, hn⟩ | ⟨he, hn, _⟩ | ⟨_, m, hm, hlv⟩
        · simp only [Node.task.injEq] at hn
          obtain ⟨_, htp, hu, _⟩ := hn
          subst he; subst htp; subst hu
          exact Or.inr ⟨.waiting, cs, hT⟩
        · simp only [createTaskNode, Node.task.injEq] at hn
          exact Or.inl ⟨he, hn.2.2.1⟩
        · obtain ⟨cs5, hm2, _⟩ := eq_of_lview_task m st4 tpl4 u4 _ hlv
          exact Or.inr ⟨st4, cs5, hm2 ▸ hm⟩
      refine ⟨⟨?_, ?_, ?_, ?_, ?_, ?_, ?_⟩, ?_, by rw [hs2], ?_, by rw [hs2],
        by rw [hs2], by rw [hs2]⟩
      · exact ⟨tpl, u, cs ++ [createTaskNode tpl2 u2], by rw [htn2 p]; exact hself⟩
      · intro q st2 tpl3 u3 cs2 hqp hnode hst
        rw [htn2 q] at hnode
        rcases nodeAt_after_append T p _ tpl u cs _ hT hc0 q _ hnode with
          ⟨he, _⟩ | ⟨_, hn, _⟩ | ⟨_, m, hm, hlv⟩
        · exact absurd he hqp
        · simp only [createTaskNode, Node.task.injEq] at hn
          exact hn.2.2.2
        · obtain ⟨cs3, hm2, hids⟩ := eq_of_lview_task m st2 tpl3 u3 _ hlv
          have h5 := hmid.nonDoneEmpty q st2 tpl3 u3 cs3 hqp
            (by rw [htn q]; exact hm2 ▸ hm) hst
          rw [h5] at hids
          exact List.map_eq_nil_iff.mp hids.symm
      · intro q st2 tpl3 u3 cs2 hnode
        rw [htn2 q] at hnode
        rw [h_url]
        rcases back q st2 tpl3 u3 cs2 hnode with ⟨_, hu3⟩ | ⟨st5, cs5, hm⟩
        · rw [hu3]
          exact List.mem_append_right _ (by simp)
        · exact List.mem_append_left _
            (hmid.urlsRecorded q st5 tpl3 u3 cs5 (by rw [htn q]; exact hm))
      · intro hdist q r st2 st3 tpl3 tpl4 u3 cs2 cs3 hq hr
        have hdist2 : s.options.distinct = true := by
          rw [← show s2.options = s.options from by rw [hs2]]; exact hdist
        have hnot : u2 ∉ s.urlSet := fun hin => hd ⟨hdist2, hin⟩
        rw [htn2 q] at hq
        rw [htn2 r] at hr
        rcases back q st2 tpl3 u3 cs2 hq with ⟨hq1, hq2⟩ | ⟨st5, cs5, hq5⟩ <;>
          rcases back r st3 tpl4 u3 cs3 hr with ⟨hr1, hr2⟩ | ⟨st6, cs6, hr6⟩
        · rw [hq1, hr1]
        · exfalso
          apply hnot
          rw [← hq2]
          exact hmid.urlsRecorded r st6 tpl4 u3 cs6 (by rw [htn r]; exact hr6)
        · exfalso
          apply hnot
          rw [← hr2]
          exact hmid.urlsRecorded q st5 tpl3 u3 cs5 (by rw [htn q]; exact hq5)
        · exact hmid.urlsDistinct hdist2 q r st5 st6 tpl3 tpl4 u3 cs5 cs6
            (by rw [htn q]; exact hq5) (by rw [htn r]; exact hr6)
      · intro e he
        rw [h_queue] at he
        rcases List.mem_append.mp he with hold | hnew
        · have h1 := hmid.queueOK e hold
          have h2 := hmid.queueAway e hold
          rw [htn e.path] at h1
          obtain ⟨n, hn, hlv⟩ := nodeAt_after_append_fwd T p _ tpl u cs
            (createTaskNode tpl2 u2) hT e.path _ h1 h2
          obtain ⟨cs4, hn2, hids⟩ := eq_of_lview_task n .waiting e.template e.url
            (List.map localId []) (by rw [hlv]; rfl)
          have hcs4 : cs4 = [] := List.map_eq_nil_iff.mp (hids.trans rfl)
          rw [htn2 e.path, hn, hn2, hcs4]
        · have he2 : e = ⟨p ++ [cs.length], tpl2, u2⟩ := by simpa using hnew
          rw [he2, htn2]
          exact hnewchild
      · rw [h_queue]
        rw [List.pairwise_append]
        refine ⟨hmid.queuePaths, by simp, ?_⟩
        intro a ha b hb
        have hb2 : b = ⟨p ++ [cs.length], tpl2, u2⟩ := by simpa using hb
        rw [hb2]
        intro heq
        have h1 := hmid.queueOK a ha
        rw [htn a.path, heq] at h1
        rw [holdnone] at h1
        exact absurd h1 (by simp)
      · intro e he
        rw [h_queue] at he
        rcases List.mem_append.mp he with hold | hnew
        · exact hmid.queueAway e hold
        · have he2 : e = ⟨p ++ [cs.length], tpl2, u2⟩ := by simpa using hnew
          rw [he2]
          intro heq
          have h3 := congrArg List.length heq
          simp at h3
      · rw [htn2 p]
        have hk : commitKids s.options.distinct s.urlSet [AddCall.task tpl2 u2] =
            [createTaskNode tpl2 u2] := by
          simp [commitKids, hd]
        rw [hk]
        exact hself
      · rw [h_url]
        have ha : admittedUrls s.options.distinct s.urlSet [AddCall.task tpl2 u2] =
            [u2] := by
          simp [admittedUrls, hd]
        rw [ha]

/-- The whole replay loop of `exec`, by induction over the buffered
calls: the owner's children grow by exactly `commitKids` of the call
list, the registry by exactly `admittedUrls` of it. -/
theorem execCommit_mid (calls : List AddCall) (p : List Nat) (s : SchedState)
    (tpl u : String) (cs : List Node) (hmid : MidInv p s)
    (hown : treeNodeAt s p = some (.task .waiting tpl u cs)) :
    MidInv p (execCommit (some p) calls s) ∧
    treeNodeAt (execCommit (some p) calls s) p =
      some (.task .waiting tpl u
        (cs ++ commitKids s.options.distinct s.urlSet calls)) ∧
    (execCommit (some p) calls s).options = s.options ∧
    (execCommit (some p) calls s).urlSet =
      s.urlSet ++ admittedUrls s.options.distinct s.urlSet calls ∧
    (execCommit (some p) calls s).stopped = s.stopped ∧
    (execCommit (some p) calls s).templates = s.templates ∧
    (execCommit (some p) calls s).startUsed = s.startUsed := by
  induction calls generalizing s cs with
  | nil =>
    refine ⟨hmid, ?_, rfl, ?_, rfl, rfl, rfl⟩
    · rw [show commitKids s.options.distinct s.urlSet [] = [] from rfl,
        List.append_nil]
      exact hown
    · rw [show admittedUrls s.options.distinct s.urlSet [] = [] from rfl,
        List.append_nil]
      rfl
  | cons c rest ih =>
    obtain ⟨hmid1, hown1, hopt1, hurl1, hstp1, htpl1, hsu1⟩ :=
      execStep_mid p s c tpl u cs hmid hown
    have hcc : execCommit (some p) (c :: rest) s =
        execCommit (some p) rest (execStep (some p) s c) := rfl
    obtain ⟨hmid2, hown2, hopt2, hurl2, hstp2, htpl2, hsu2⟩ :=
      ih (execStep (some p) s c)
        (cs ++ commitKids s.options.distinct s.urlSet [c]) hmid1 hown1
    rw [hcc]
    refine ⟨hmid2, ?_, hopt2.trans hopt1, ?_, hstp2.trans hstp1,
      htpl2.trans htpl1, hsu2.trans hsu1⟩
    · rw [hown2, hopt1, hurl1,
        commitKids_cons s.options.distinct s.urlSet c rest, List.append_assoc]
    · rw [hurl2, hurl1, hopt1,
        admittedUrls_cons s.options.distinct s.urlSet c rest, List.append_assoc]

theorem wf_events (s : SchedState) (E : List Event) (hw : WFState s) :
    WFState { s with events := E } :=
  ⟨hw.nonDoneEmpty, hw.urlsRecorded, hw.urlsDistinct, hw.queueOK,
   hw.queuePaths, hw.preStart⟩

theorem wf_templates (s : SchedState) (tps : List (String × TemplateFn))
    (hw : WFState s) : WFState { s with templates := tps } :=
  ⟨hw.nonDoneEmpty, hw.urlsRecorded, hw.urlsDistinct, hw.queueOK,
   hw.queuePaths, hw.preStart⟩

theorem wf_stop (s : SchedState) (hw : WFState s) : WFState (stop s) :=
  ⟨hw.nonDoneEmpty, hw.urlsRecorded, hw.urlsDistinct, hw.queueOK,
   hw.queuePaths, hw.preStart⟩

theorem wf_markStarted (s : SchedState) (hw : WFState s) :
    WFState (markStarted s) := by
  refine ⟨hw.nonDoneEmpty, hw.urlsRecorded, hw.urlsDistinct, hw.queueOK,
    hw.queuePaths, ?_⟩
  intro h
  simp [markStarted] at h

theorem wf_onDone (s : SchedState) (hw : WFState s) : WFState (onDone s) := by
  rw [onDone]
  by_cases h : s.stopped = true
  · rw [if_pos h]; exact hw
  · rw [if_neg h]; exact wf_events s _ hw

/-- A state satisfying the commit invariant whose owner has no children
satisfies the full invariant. -/
theorem wf_of_mid (s : SchedState) (p : List Nat) (tpl u : String)
    (hmid : MidInv p s) (hown : treeNodeAt s p = some (.task .waiting tpl u []))
    (hsu : s.startUsed = true) : WFState s := by
  refine ⟨?_, hmid.urlsRecorded, hmid.urlsDistinct, hmid.queueOK,
    hmid.queuePaths, ?_⟩
  · intro q st tpl2 u2 cs h hst
    by_cases hqp : q = p
    · subst hqp
      rw [h] at hown
      simp only [Option.some.injEq, Node.task.injEq] at hown
      exact hown.2.2.2
    · exact hmid.nonDoneEmpty q st tpl2 u2 cs hqp h hst
  · intro h
    simp [h] at hsu

/-- Finalizing a commit: assigning `done` (any children) or `fail` (no
children) to a mid-commit owner restores the full invariant. -/
theorem wf_of_setState (s : SchedState) (p : List Nat) (tpl u : String)
    (kids : List Node) (st0 : TaskState) (hmid : MidInv p s)
    (hown : treeNodeAt s p = some (.task .waiting tpl u kids))
    (hsu : s.startUsed = true)
    (hst : st0 = .done ∨ (st0 = .fail ∧ kids = [])) :
    WFState (setStateAt s p st0) := by
  obtain ⟨T, hcr⟩ : ∃ T, s.crawlTree = some T := by
    cases hc2 : s.crawlTree with
    | none => rw [treeNodeAt, hc2] at hown; simp at hown
    | some T => exact ⟨T, rfl⟩
  have htn := treeNodeAt_eq s T hcr
  have hT : nodeAt p T = some (.task .waiting tpl u kids) := by
    rw [← htn p]; exact hown
  have h_tree : (setStateAt s p st0).crawlTree =
      some (updateAt p (setState st0) T) := by
    rw [setStateAt]; show s.crawlTree.map _ = _; rw [hcr]; rfl
  have htn2 := treeNodeAt_eq (setStateAt s p st0) _ h_tree
  have hself := nodeAt_updateAt_self p (setState st0) T _ hT
  have back : ∀ q2 st4 tpl4 u4 cs4,
      nodeAt q2 (updateAt p (setState st0) T) = some (.task st4 tpl4 u4 cs4) →
      ∃ st5 cs5, nodeAt q2 T = some (.task st5 tpl4 u4 cs5) := by
    intro q2 st4 tpl4 u4 cs4 hq2
    rcases nodeAt_after_setState T p st0 _ hT q2 _ hq2 with ⟨he, hn⟩ | ⟨_, m, hm, hlv⟩
    · rw [setState] at hn
      simp only [Node.task.injEq] at hn
      obtain ⟨_, htp, hu, _⟩ := hn
      subst he; subst htp; subst hu
      exact ⟨.waiting, kids, hT⟩
    · obtain ⟨cs5, hm2, _⟩ := eq_of_lview_task m st4 tpl4 u4 _ hlv
      exact ⟨st4, cs5, hm2 ▸ hm⟩
  refine ⟨?_, ?_, ?_, ?_, ?_, ?_⟩
  · intro q st tpl2 u2 cs h hstne
    rw [htn2 q] at h
    rcases nodeAt_after_setState T p st0 _ hT q _ h with ⟨he, hn⟩ | ⟨hqp, m, hm, hlv⟩
    · rw [setState] at hn
      simp only [Node.task.injEq] at hn
      obtain ⟨hst4, _, _, hcs⟩ := hn
      rcases hst with hdone | ⟨hfail, hkids⟩
      · exact absurd (hst4.trans hdone) hstne
      · rw [hcs]; exact hkids
    · obtain ⟨cs3, hm2, hids⟩ := eq_of_lview_task m st tpl2 u2 _ hlv
      have h5 := hmid.nonDoneEmpty q st tpl2 u2 cs3 hqp
        (by rw [htn q]; exact hm2 ▸ hm) hstne
      rw [h5] at hids
      exact List.map_eq_nil_iff.mp hids.symm
  · intro q st tpl2 u2 cs h
    rw [htn2 q] at h
    obtain ⟨st5, cs5, hm⟩ := back q st tpl2 u2 cs h
    exact hmid.urlsRecorded q st5 tpl2 u2 cs5 (by rw [htn q]; exact hm)
  · intro hdist q r st2 st3 tpl2 tpl3 u2 cs2 cs3 hq hr
    rw [htn2 q] at hq
    rw [htn2 r] at hr
    obtain ⟨st5, cs5, hq5⟩ := back q st2 tpl2 u2 cs2 hq
    obtain ⟨st6, cs6, hr6⟩ := back r st3 tpl3 u2 cs3 hr
    exact hmid.urlsDistinct hdist q r st5 st6 tpl2 tpl3 u2 cs5 cs6
      (by rw [htn q]; exact hq5) (by rw [htn r]; exact hr6)
  · intro e he
    have h1 := hmid.queueOK e he
    have h2 := hmid.queueAway e he
    rw [htn e.path] at h1
    obtain ⟨n, hn, hlv⟩ := nodeAt_after_setState_fwd T p st0 _ hT e.path _ h1 h2
    obtain ⟨cs4, hn2, hids⟩ := eq_of_lview_task n .waiting e.template e.url
      (List.map localId []) (by rw [hlv]; rfl)
    have hcs4 : cs4 = [] := List.map_eq_nil_iff.mp (hids.trans rfl)
    rw [htn2 e.path, hn, hn2, hcs4]
  · exact hmid.queuePaths
  · intro h
    simp [setStateAt] at h
    simp [h] at hsu

/-- Popping a queued task from the queue yields a state satisfying the
commit invariant for that task's node. -/
theorem midInv_of_popped (s : SchedState) (pre post : List QueuedTask)
    (t : QueuedTask) (hwf : WFState s) (hq : s.taskQueue = pre ++ t :: post) :
    MidInv t.path { s with taskQueue := pre ++ post } ∧
    treeNodeAt { s with taskQueue := pre ++ post } t.path =
      some (.task .waiting t.template t.url []) ∧
    s.startUsed = true := by
  have hmem : t ∈ s.taskQueue := by
    rw [hq]
    exact List.mem_append_right _ (List.mem_cons_self _ _)
  have hself := hwf.queueOK t hmem
  have hsu : s.startUsed = true := by
    by_contra hsu2
    have h2 := (hwf.preStart (by simpa using hsu2)).2.1
    rw [hq] at h2
    simp at h2
  have hsubmem : ∀ e ∈ pre ++ post, e ∈ s.taskQueue := by
    intro e he
    rw [hq]
    rcases List.mem_append.mp he with h1 | h2
    · exact List.mem_append_left _ h1
    · exact List.mem_append_right _ (List.mem_cons_of_mem _ h2)
  have haway : ∀ e ∈ pre ++ post, e.path ≠ t.path := by
    intro e he
    have hp := hwf.queuePaths
    rw [hq, List.pairwise_append] at hp
    obtain ⟨hp1, hp2, hp3⟩ := hp
    rcases List.mem_append.mp he with h1 | h2
    · exact hp3 e h1 t (List.mem_cons_self _ _)
    · have h4 := (List.pairwise_cons.mp hp2).1 e h2
      exact fun hh => h4 hh.symm
  have hsub : List.Sublist (pre ++ post) s.taskQueue := by
    rw [hq]
    exact List.Sublist.append (List.Sublist.refl pre)
      ((List.Sublist.refl post).cons t)
  refine ⟨⟨⟨t.template, t.url, [], hself⟩, ?_, hwf.urlsRecorded, hwf.urlsDistinct,
    ?_, ?_, haway⟩, hself, hsu⟩
  · intro q st tpl u cs _ h hst
    exact hwf.nonDoneEmpty q st tpl u cs h hst
  · intro e he
    exact hwf.queueOK e (hsubmem e he)
  · exact hwf.queuePaths.sublist hsub

theorem runTask_stopped (s : SchedState) (t : QueuedTask)
    (h : s.stopped = true) : runTask s t = s := by
  simp [runTask, h]

theorem runTask_noTemplate (s : SchedState) (t : QueuedTask)
    (h1 : s.stopped = false)
    (h2 : List.lookup t.template s.templates = none) :
    runTask s t =
      { setStateAt s t.path .fail with
        events := s.events ++
          [Event.fail ("Templete " ++ t.template ++ " does not exist")] } := by
  simp [runTask, h1, h2]

theorem runTask_failure (s : SchedState) (t : QueuedTask) (f : TemplateFn)
    (ds : List AddCall) (err : String) (h1 : s.stopped = false)
    (h2 : List.lookup t.template s.templates = some f)
    (h3 : f t.url = .failure ds err) :
    runTask s t =
      { setStateAt s t.path .fail with
        events := s.events ++ [Event.fail err] } := by
  simp [runTask, h1, h2, h3]

theorem runTask_success (s : SchedState) (t : QueuedTask) (f : TemplateFn)
    (calls : List AddCall) (h1 : s.stopped = false)
    (h2 : List.lookup t.template s.templates = some f)
    (h3 : f t.url = .success calls) :
    runTask s t = setStateAt (execCommit (some t.path) calls s) t.path .done := by
  simp [runTask, h1, h2, h3]

/-- Settling any queued task body preserves the invariant. -/
theorem runTask_wf (s : SchedState) (pre post : List QueuedTask)
    (t : QueuedTask) (hwf : WFState s) (hq : s.taskQueue = pre ++ t :: post) :
    WFState (runTask { s with taskQueue := pre ++ post } t) := by
  obtain ⟨hmid, hown, hsu⟩ := midInv_of_popped s pre post t hwf hq
  set s0 : SchedState := { s with taskQueue := pre ++ post } with hs0
  by_cases hstop : s0.stopped = true
  · rw [runTask_stopped s0 t hstop]
    exact wf_of_mid _ t.path t.template t.url hmid hown hsu
  · have h1 : s0.stopped = false := by simpa using hstop
    cases hlook : List.lookup t.template s0.templates with
    | none =>
      rw [runTask_noTemplate s0 t h1 hlook]
      exact wf_events _ _
        (wf_of_setState _ t.path t.template t.url [] .fail hmid hown hsu
          (Or.inr ⟨rfl, rfl⟩))
    | some f =>
      cases hout : f t.url with
      | success calls =>
        rw [runTask_success s0 t f calls h1 hlook hout]
        obtain ⟨hmid2, hown2, _, _, _, _, hsu2⟩ :=
          execCommit_mid calls t.path _ t.template t.url [] hmid hown
        exact wf_of_setState _ t.path t.template t.url _ .done hmid2 hown2
          (by rw [hsu2]; exact hsu) (Or.inl rfl)
      | failure ds err =>
        rw [runTask_failure s0 t f ds err h1 hlook hout]
        exact wf_events _ _
          (wf_of_setState _ t.path t.template t.url [] .fail hmid hown hsu
            (Or.inr ⟨rfl, rfl⟩))

theorem resetList_get? (cs : List Node) (i : Nat) :
    (resetList cs)[i]? = cs[i]?.map resetNode := by
  induction cs generalizing i with
  | nil => cases i <;> simp [resetList]
  | cons c rest ih =>
    cases i with
    | zero => simp [resetList]
    | succ j => simpa [resetList] using ih j

/-- The resume-time state reset commutes with path lookup. -/
theorem nodeAt_resetNode (q : List Nat) (t : Node) :
    nodeAt q (resetNode t) = (nodeAt q t).map resetNode := by
  induction q generalizing t with
  | nil => simp [nodeAt]
  | cons i r ih =>
    cases t with
    | data d => simp [resetNode, nodeAt]
    | task st tpl u cs =>
      simp only [resetNode, nodeAt, resetList_get?]
      cases hg : cs[i]? with
      | none => simp [hg]
      | some c => simp [hg, ih c]

theorem taskEntryOf_eq (a : List Nat × Node) (e : QueuedTask)
    (h : taskEntryOf a = some e) :
    ∃ st tpl u cs, a.2 = .task st tpl u cs ∧ st ≠ .done ∧ e = ⟨a.1, tpl, u⟩ := by
  obtain ⟨p2, n⟩ := a
  cases n with
  | data d => simp [taskEntryOf] at h
  | task st tpl u cs =>
    by_cases hst : st = .done
    · simp [taskEntryOf, hst] at h
    · simp only [taskEntryOf, hst, if_neg, ite_false] at h
      exact ⟨st, tpl, u, cs, rfl, hst, (Option.some.inj h).symm⟩

theorem entries_paths_sublist (l : List (List Nat × Node)) :
    List.Sublist ((l.filterMap taskEntryOf).map QueuedTask.path)
      (l.map Prod.fst) := by
  induction l with
  | nil => simp
  | cons a l ih =>
    cases he : taskEntryOf a with
    | none =>
      rw [List.filterMap_cons, he, List.map_cons]
      exact ih.cons a.1
    | some e =>
      rw [List.filterMap_cons, he, List.map_cons, List.map_cons]
      obtain ⟨st, tpl, u, cs, _, _, he2⟩ := taskEntryOf_eq a e he
      rw [he2]
      exact ih.cons₂ a.1

/-- Starting from a snapshot (with the first `start` call) preserves the
invariant, provided the snapshot satisfies the documented contract of
that argument (`SnapOK`). -/
theorem startSnap_wf (s : SchedState) (snap : Node) (hsu : s.startUsed = false)
    (hok : SnapOK s.options.distinct snap) (hwf : WFState s) :
    WFState (markStarted (startWithSnapshot snap s)) := by
  obtain ⟨htree, hqueue, hurl⟩ := hwf.preStart hsu
  have key : ∀ E, WFState
      { s with
        crawlTree := some (resetNode snap)
        urlSet := s.urlSet ++ (preorderPaths snap []).filterMap taskUrlOf
        taskQueue := s.taskQueue ++ (preorderPaths snap []).filterMap taskEntryOf
        events := E
        startUsed := true } := by
    intro E
    set s1 : SchedState :=
      { s with
        crawlTree := some (resetNode snap)
        urlSet := s.urlSet ++ (preorderPaths snap []).filterMap taskUrlOf
        taskQueue := s.taskQueue ++ (preorderPaths snap []).filterMap taskEntryOf
        events := E
        startUsed := true } with hs1
    have htn : ∀ q, treeNodeAt s1 q = (nodeAt q snap).map resetNode := by
      intro q
      rw [treeNodeAt]
      show (some (resetNode snap)).bind (nodeAt q) = _
      rw [Option.some_bind, nodeAt_resetNode]
    have hback : ∀ q st tpl u cs, treeNodeAt s1 q = some (.task st tpl u cs) →
        ∃ st2 cs2, nodeAt q snap = some (.task st2 tpl u cs2) ∧
          st = (if st2 = .done then .done else .waiting) ∧ cs = resetList cs2 := by
      intro q st tpl u cs h
      rw [htn q] at h
      obtain ⟨m, hm, hrm⟩ := Option.map_eq_some'.mp h
      cases m with
      | data d => simp [resetNode] at hrm
      | task st2 tpl2 u2 cs2 =>
        rw [resetNode] at hrm
        simp only [Node.task.injEq] at hrm
        obtain ⟨h1, h2, h3, h4⟩ := hrm
        subst h2; subst h3
        exact ⟨st2, cs2, hm, h1.symm, h4.symm⟩
    refine ⟨?_, ?_, ?_, ?_, ?_, ?_⟩
    · intro q st tpl u cs h hst
      obtain ⟨st2, cs2, hm, hstate, hcs⟩ := hback q st tpl u cs h
      have hst2 : st2 ≠ .done := by
        intro hdone
        rw [hdone] at hstate
        simp at hstate
        exact hst hstate
      have h4 := hok.1 q st2 tpl u cs2 hm hst2
      rw [hcs, h4]
      rfl
    · intro q st tpl u cs h
      obtain ⟨st2, cs2, hm, _, _⟩ := hback q st tpl u cs h
      show u ∈ s.urlSet ++ _
      refine List.mem_append_right _ (List.mem_filterMap.mpr ?_)
      exact ⟨(q, .task st2 tpl u cs2),
        (mem_preorderPaths snap [] q _).mpr ⟨q, by simp, hm⟩, rfl⟩
    · intro hdist q r st st2 tpl tpl2 u cs cs2 hq hr
      obtain ⟨st3, cs3, hm3, _, _⟩ := hback q st tpl u cs hq
      obtain ⟨st4, cs4, hm4, _, _⟩ := hback r st2 tpl2 u cs2 hr
      exact hok.2 hdist q r st3 st4 tpl tpl2 u cs3 cs4 hm3 hm4
    · intro e he
      have he2 : e ∈ (preorderPaths snap []).filterMap taskEntryOf := by
        rcases List.mem_append.mp he with h1 | h2
        · rw [hqueue] at h1
          simp at h1
        · exact h2
      obtain ⟨⟨q, n⟩, hv, hee⟩ := List.mem_filterMap.mp he2
      obtain ⟨st, tpl, u, cs, hn, hstne, hev⟩ := taskEntryOf_eq (q, n) e hee
      simp only at hn
      subst hn
      obtain ⟨r2, hr2, hnode⟩ := (mem_preorderPaths snap [] q _).mp hv
      simp only [List.nil_append] at hr2
      subst hr2
      have hcs : cs = [] := hok.1 q st tpl u cs hnode hstne
      rw [hev]
      show treeNodeAt s1 q = _
      rw [htn q, hnode]
      simp only [Option.map_some', resetNode, Option.some.injEq]
      rw [if_neg hstne, hcs]
      rfl
    · show List.Pairwise _ (s.taskQueue ++ _)
      rw [hqueue, List.nil_append]
      have h1 : (((preorderPaths snap []).filterMap taskEntryOf).map
          QueuedTask.path).Nodup :=
        List.Nodup.sublist (entries_paths_sublist _) (preorderPaths_fst_nodup snap [])
      exact (List.pairwise_map.mp h1)
    · intro h
      simp at h
  rw [markStarted, startWithSnapshot]
  by_cases hempty :
      ((preorderPaths snap []).filterMap taskEntryOf).isEmpty = true
  · rw [if_pos hempty, onDone]
    by_cases hstp : s.stopped = true
    · rw [if_pos hstp]
      exact key s.events
    · rw [if_neg hstp]
      exact key (s.events ++ [Event.done])
  · rw [if_neg hempty]
    exact key s.events

/-- Starting from an entry page (with the first `start` call) preserves
the invariant. -/
theorem startEntry_wf (s : SchedState) (template url : String)
    (hsu : s.startUsed = false) (hwf : WFState s) :
    WFState (markStarted (startWithEntry template url s)) := by
  obtain ⟨htree, hqueue, hurl⟩ := hwf.preStart hsu
  have hd : ¬(s.options.distinct = true ∧ url ∈ s.urlSet) := by
    rintro ⟨_, hin⟩
    rw [hurl] at hin
    simp at hin
  have hrw : startWithEntry template url s =
      { s with
        urlSet := s.urlSet ++ [url]
        crawlTree := some (createTaskNode template url)
        taskQueue := s.taskQueue ++ [⟨[], template, url⟩] } := by
    rw [startWithEntry]
    show execStep none s (.task template url) = _
    exact execStep_task_root s template url hd
  rw [markStarted, hrw]
  refine ⟨?_, ?_, ?_, ?_, ?_, ?_⟩
  · intro q st tpl u cs h _
    cases q with
    | nil =>
      simp only [treeNodeAt, Option.some_bind, nodeAt, createTaskNode,
        Option.some.injEq, Node.task.injEq] at h
      exact h.2.2.2.symm
    | cons i r => simp [treeNodeAt, nodeAt, createTaskNode] at h
  · intro q st tpl u cs h
    cases q with
    | nil =>
      simp only [treeNodeAt, Option.some_bind, nodeAt, createTaskNode,
        Option.some.injEq, Node.task.injEq] at h
      rw [← h.2.2.1]
      exact List.mem_append_right _ (by simp)
    | cons i r => simp [treeNodeAt, nodeAt, createTaskNode] at h
  · intro _ q r st st2 tpl tpl2 u cs cs2 hq hr
    cases q with
    | nil =>
      cases r with
      | nil => rfl
      | cons j r2 => simp [treeNodeAt, nodeAt, createTaskNode] at hr
    | cons i q2 => simp [treeNodeAt, nodeAt, createTaskNode] at hq
  · intro e he
    rcases List.mem_append.mp he with h1 | h2
    · rw [hqueue] at h1
      simp at h1
    · have he2 : e = ⟨[], template, url⟩ := by simpa using h2
      rw [he2]
      show treeNodeAt _ [] = _
      simp [treeNodeAt, nodeAt, createTaskNode]
  · show List.Pairwise _ (s.taskQueue ++ _)
    rw [hqueue]
    simp
  · intro h
    simp at h

theorem wf_init (o : OptsArg) : WFState (initState o) := by
  refine ⟨?_, ?_, ?_, ?_, ?_, ?_⟩
  · intro p st tpl u cs h _
    simp [treeNodeAt, initState] at h
  · intro p st tpl u cs h
    simp [treeNodeAt, initState] at h
  · intro _ p q st st2 tpl tpl2 u cs cs2 h _
    simp [treeNodeAt, initState] at h
  · intro e he
    simp [initState] at he
  · simp [initState]
  · intro _
    exact ⟨rfl, rfl, rfl⟩

theorem register_none (s : SchedState) (template : String) (f : TemplateFn)
    (h : List.lookup template s.templates = none) :
    register s template f =
      .ok { s with templates := (template, f) :: s.templates } := by
  simp [register, h]

theorem register_some (s : SchedState) (template : String) (f g : TemplateFn)
    (h : List.lookup template s.templates = some g) :
    register s template f =
      .error ("Template " ++ template ++ " has been registered") := by
  simp [register, h]

/-- Every atomic step preserves the invariant. -/
theorem step_wf (s s2 : SchedState) (hwf : WFState s) (hstep : Step s s2) :
    WFState s2 := by
  cases hstep with
  | registerOk template f s2 hreg =>
    cases hlook : List.lookup template s.templates with
    | some g =>
      rw [register_some s template f g hlook] at hreg
      simp at hreg
    | none =>
      rw [register_none s template f hlook] at hreg
      simp only [Except.ok.injEq] at hreg
      rw [← hreg]
      exact wf_templates s _ hwf
  | startEntry template url hsu => exact startEntry_wf s template url hsu hwf
  | startSnap snap hsu hok => exact startSnap_wf s snap hsu hok hwf
  | startOther hsu => exact wf_markStarted s hwf
  | runStep pre post t hq => exact runTask_wf s pre post t hwf hq
  | stopStep => exact wf_stop s hwf
  | emptyStep h1 h2 => exact wf_onDone s hwf

/-- The run invariant holds in every reachable scheduler state. -/
theorem reachable_wf (s : SchedState) (h : Reachable s) : WFState s := by
  obtain ⟨o, hrtg⟩ := h
  induction hrtg with
  | refl => exact wf_init o
  | tail hab hbc ih => exact step_wf _ _ ih hbc

theorem treeNodeAt_setStateAt_self (s : SchedState) (p : List Nat)
    (st0 : TaskState) (n : Node) (h : treeNodeAt s p = some n) :
    treeNodeAt (setStateAt s p st0) p = some (setState st0 n) := by
  obtain ⟨T, hcr⟩ : ∃ T, s.crawlTree = some T := by
    cases hc2 : s.crawlTree with
    | none => rw [treeNodeAt, hc2] at h; simp at h
    | some T => exact ⟨T, rfl⟩
  have hT : nodeAt p T = some n := by rw [← treeNodeAt_eq s T hcr p]; exact h
  have h_tree : (setStateAt s p st0).crawlTree =
      some (updateAt p (setState st0) T) := by
    rw [setStateAt]; show s.crawlTree.map _ = _; rw [hcr]; rfl
  rw [treeNodeAt_eq _ _ h_tree p]
  exact nodeAt_updateAt_self p (setState st0) T n hT

/-- A node away from the reassigned path keeps its local view. -/
theorem setStateAt_lview (s : SchedState) (p : List Nat) (st0 : TaskState)
    (n0 : Node) (hown : treeNodeAt s p = some n0) (q : List Nat) (m : Node)
    (hq : treeNodeAt s q = some m) (hqp : q ≠ p) :
    ∃ n, treeNodeAt (setStateAt s p st0) q = some n ∧ lview n = lview m := by
  obtain ⟨T, hcr⟩ : ∃ T, s.crawlTree = some T := by
    cases hc2 : s.crawlTree with
    | none => rw [treeNodeAt, hc2] at hown; simp at hown
    | some T => exact ⟨T, rfl⟩
  have hT : nodeAt p T = some n0 := by rw [← treeNodeAt_eq s T hcr p]; exact hown
  have hqT : nodeAt q T = some m := by rw [← treeNodeAt_eq s T hcr q]; exact hq
  have h_tree : (setStateAt s p st0).crawlTree =
      some (updateAt p (setState st0) T) := by
    rw [setStateAt]; show s.crawlTree.map _ = _; rw [hcr]; rfl
  obtain ⟨n, hn, hlv⟩ := nodeAt_after_setState_fwd T p st0 n0 hT q m hqT hqp
  exact ⟨n, by rw [treeNodeAt_eq _ _ h_tree q]; exact hn, hlv⟩

/-- A node away from the owner keeps its local view across one replayed
collector call. -/
theorem execStep_lview (p : List Nat) (s : SchedState) (c : AddCall)
    (tpl u : String) (cs : List Node)
    (hown : treeNodeAt s p = some (.task .waiting tpl u cs))
    (q : List Nat) (m : Node) (hq : treeNodeAt s q = some m) (hqp : q ≠ p) :
    ∃ n, treeNodeAt (execStep (some p) s c) q = some n ∧ lview n = lview m := by
  obtain ⟨T, hcr⟩ : ∃ T, s.crawlTree = some T := by
    cases hc2 : s.crawlTree with
    | none => rw [treeNodeAt, hc2] at hown; simp at hown
    | some T => exact ⟨T, rfl⟩
  have hT : nodeAt p T = some (.task .waiting tpl u cs) := by
    rw [← treeNodeAt_eq s T hcr p]; exact hown
  have hqT : nodeAt q T = some m := by rw [← treeNodeAt_eq s T hcr q]; exact hq
  cases c with
  | data d =>
    rw [execStep_data]
    obtain ⟨n, hn, hlv⟩ :=
      nodeAt_after_append_fwd T p _ tpl u cs (createDataNode d) hT q m hqT hqp
    refine ⟨n, ?_, hlv⟩
    have h_tree : ({ s with
        crawlTree := s.crawlTree.map (updateAt p (appendChild (createDataNode d)))
        events := s.events ++ [Event.data d] } : SchedState).crawlTree =
        some (updateAt p (appendChild (createDataNode d)) T) := by
      show s.crawlTree.map _ = _; rw [hcr]; rfl
    rw [treeNodeAt_eq _ _ h_tree q]
    exact hn
  | task tpl2 u2 =>
    by_cases hd : s.options.distinct = true ∧ u2 ∈ s.urlSet
    · rw [execStep_task_skip _ _ _ _ hd]
      exact ⟨m, hq, rfl⟩
    · rw [execStep_task_add p s tpl2 u2 hd]
      obtain ⟨n, hn, hlv⟩ :=
        nodeAt_after_append_fwd T p _ tpl u cs (createTaskNode tpl2 u2) hT q m hqT hqp
      refine ⟨n, ?_, hlv⟩
      have h_tree : ({ s with
          urlSet := s.urlSet ++ [u2]
          crawlTree := s.crawlTree.map (updateAt p (appendChild (createTaskNode tpl2 u2)))
          taskQueue := s.taskQueue ++
            [⟨p ++ [childrenCountAt s.crawlTree p], tpl2, u2⟩] } : SchedState).crawlTree =
          some (updateAt p (appendChild (createTaskNode tpl2 u2)) T) := by
        show s.crawlTree.map _ = _; rw [hcr]; rfl
      rw [treeNodeAt_eq _ _ h_tree q]
      exact hn

/-- A `done` node keeps its state, creation fields and the identities of
its children sequence across a whole commit. -/
theorem execCommit_done (calls : List AddCall) (p : List Nat) (s : SchedState)
    (tpl u : String) (cs : List Node) (hmid : MidInv p s)
    (hown : treeNodeAt s p = some (.task .waiting tpl u cs))
    (q : List Nat) (tpl2 u2 : String) (cs2 : List Node)
    (hq : treeNodeAt s q = some (.task .done tpl2 u2 cs2)) :
    ∃ cs3, treeNodeAt (execCommit (some p) calls s) q =
      some (.task .done tpl2 u2 cs3) ∧ cs3.map localId = cs2.map localId := by
  induction calls generalizing s cs cs2 with
  | nil => exact ⟨cs2, hq, rfl⟩
  | cons c rest ih =>
    have hqp : q ≠ p := by
      intro he
      rw [he, hown] at hq
      simp at hq
    obtain ⟨hmid1, hown1, _, _, _, _, _⟩ := execStep_mid p s c tpl u cs hmid hown
    obtain ⟨n, hn, hlv⟩ := execStep_lview p s c tpl u cs hown q _ hq hqp
    obtain ⟨cs4, hn2, hids⟩ := eq_of_lview_task n .done tpl2 u2 _ hlv
    obtain ⟨cs5, h5, hids5⟩ := ih (execStep (some p) s c) _ hmid1 hown1 cs4
      (by rw [hn, hn2])
    exact ⟨cs5, h5, hids5.trans hids⟩

mutual
theorem resetNode_of_allDone (t : Node) (h : allDone t = true) :
    resetNode t = t := by
  cases t with
  | data d => rfl
  | task st tpl u cs =>
    rw [allDone] at h
    simp only [Bool.and_eq_true, decide_eq_true_eq] at h
    rw [resetNode, if_pos h.1, h.1, resetList_of_allDone cs h.2]

theorem resetList_of_allDone (cs : List Node) (h : allDoneList cs = true) :
    resetList cs = cs := by
  cases cs with
  | nil => rfl
  | cons c rest =>
    rw [allDoneList] at h
    simp only [Bool.and_eq_true] at h
    rw [resetList, resetNode_of_allDone c h.1, resetList_of_allDone rest h.2]
end

theorem resetNode_localId (t : Node) : localId (resetNode t) = localId t := by
  cases t <;> rfl

theorem resetList_map_localId (cs : List Node) :
    (resetList cs).map localId = cs.map localId := by
  induction cs with
  | nil => rfl
  | cons c rest ih => simp [resetList, resetNode_localId, ih]

theorem startWithSnapshot_taskQueue (snap : Node) (s : SchedState) :
    (startWithSnapshot snap s).taskQueue =
      s.taskQueue ++ (preorderPaths snap []).filterMap taskEntryOf := by
  rw [startWithSnapshot]
  by_cases h : ((preorderPaths snap []).filterMap taskEntryOf).isEmpty = true
  · rw [if_pos h, onDone]
    by_cases h2 : s.stopped = true
    · rw [if_pos h2]
    · rw [if_neg h2]
  · rw [if_neg h]

theorem startWithSnapshot_crawlTree (snap : Node) (s : SchedState) :
    (startWithSnapshot snap s).crawlTree = some (resetNode snap) := by
  rw [startWithSnapshot]
  by_cases h : ((preorderPaths snap []).filterMap taskEntryOf).isEmpty = true
  · rw [if_pos h, onDone]
    by_cases h2 : s.stopped = true
    · rw [if_pos h2]
    · rw [if_neg h2]
  · rw [if_neg h]

theorem startWithSnapshot_urlSet (snap : Node) (s : SchedState) :
    (startWithSnapshot snap s).urlSet =
      s.urlSet ++ (preorderPaths snap []).filterMap taskUrlOf := by
  rw [startWithSnapshot]
  by_cases h : ((preorderPaths snap []).filterMap taskEntryOf).isEmpty = true
  · rw [if_pos h, onDone]
    by_cases h2 : s.stopped = true
    · rw [if_pos h2]
    · rw [if_neg h2]
  · rw [if_neg h]

def isDoneEvent : Event → Bool
  | .done => true
  | _ => false

/-- After `stop()` a step can neither clear the flag nor emit anything:
the event log is frozen. -/
theorem stop_frozen (s s2 : SchedState) (hstop : s.stopped = true)
    (hstep : Step s s2) : s2.stopped = true ∧ s2.events = s.events := by
  cases hstep with
  | registerOk template f s2 hreg =>
    cases hlook : List.lookup template s.templates with
    | some g =>
      rw [register_some s template f g hlook] at hreg
      simp at hreg
    | none =>
      rw [register_none s template f hlook] at hreg
      simp only [Except.ok.injEq] at hreg
      rw [← hreg]
      exact ⟨hstop, rfl⟩
  | startEntry template url hsu =>
    rw [markStarted, startWithEntry]
    show ((execStep none s (.task template url)).stopped = true) ∧
      (execStep none s (.task template url)).events = s.events
    by_cases hd : s.options.distinct = true ∧ url ∈ s.urlSet
    · rw [execStep_task_skip _ _ _ _ hd]
      exact ⟨hstop, rfl⟩
    · rw [execStep_task_root s template url hd]
      exact ⟨hstop, rfl⟩
  | startSnap snap hsu hok =>
    rw [markStarted, startWithSnapshot]
    by_cases h : ((preorderPaths snap []).filterMap taskEntryOf).isEmpty = true
    · rw [if_pos h, onDone, if_pos (show ({ s with
        crawlTree := some (resetNode snap)
        urlSet := s.urlSet ++ (preorderPaths snap []).filterMap taskUrlOf
        taskQueue := s.taskQueue ++ (preorderPaths snap []).filterMap taskEntryOf } :
          SchedState).stopped = true from hstop)]
      exact ⟨hstop, rfl⟩
    · rw [if_neg h]
      exact ⟨hstop, rfl⟩
  | startOther hsu => exact ⟨hstop, rfl⟩
  | runStep pre post t hq =>
    rw [runTask_stopped ({ s with taskQueue := pre ++ post }) t hstop]
    exact ⟨hstop, rfl⟩
  | stopStep => exact ⟨rfl, rfl⟩
  | emptyStep h1 h2 =>
    rw [onDone, if_pos hstop]
    exact ⟨hstop, rfl⟩

theorem stop_stays (s s2 : SchedState) (hstop : s.stopped = true)
    (h : Relation.ReflTransGen Step s s2) : s2.stopped = true := by
  induction h with
  | refl => exact hstop
  | tail hab hbc ih => exact (stop_frozen _ _ ih hbc).1

theorem stop_frozen_rtg (s s2 : SchedState) (hstop : s.stopped = true)
    (h : Relation.ReflTransGen Step s s2) : s2.events = s.events := by
  induction h with
  | refl => rfl
  | tail hab hbc ih =>
    have hb := stop_stays _ _ hstop hab
    exact ((stop_frozen _ _ hb hbc).2).trans ih

theorem taskUrlOf_eq (a : List Nat × Node) (u : String)
    (h : taskUrlOf a = some u) : ∃ st tpl cs, a.2 = .task st tpl u cs := by
  obtain ⟨p2, n⟩ := a
  cases n with
  | data d => simp [taskUrlOf] at h
  | task st tpl u2 cs =>
    simp only [taskUrlOf, Option.some.injEq] at h
    exact ⟨st, tpl, cs, by rw [h]⟩

/-! ## The claims -/

/-- C1: for every task node created by the scheduler the children
sequence is empty while the node's state is `waiting` or `fail` (first
conjunct, an invariant of every reachable state); when an invocation's
task body settles successfully the node's state becomes `done` and its
children are exactly the nodes its collector calls produced, in call
order (second conjunct, `commitKids` being that list); and once `done`,
no later step changes the node's state, creation fields, or the identity
sequence of its children (third conjunct) — commits being single
synchronous steps, no partially populated children sequence is
observable in any state of the step relation. -/
theorem claim_C1 :
    (∀ s, Reachable s → ∀ p st tpl u cs,
      treeNodeAt s p = some (.task st tpl u cs) → st ≠ .done → cs = []) ∧
    (∀ s pre post t (f : TemplateFn) calls, Reachable s →
      s.taskQueue = pre ++ t :: post → s.stopped = false →
      List.lookup t.template s.templates = some f → f t.url = .success calls →
      treeNodeAt (runTask { s with taskQueue := pre ++ post } t) t.path =
        some (.task .done t.template t.url
          (commitKids s.options.distinct s.urlSet calls))) ∧
    (∀ s s2 p tpl u cs, Reachable s → Step s s2 →
      treeNodeAt s p = some (.task .done tpl u cs) →
      ∃ cs2, treeNodeAt s2 p = some (.task .done tpl u cs2) ∧
        cs2.map localId = cs.map localId) := by
  refine ⟨?_, ?_, ?_⟩
  · intro s hr p st tpl u cs h hst
    exact (reachable_wf s hr).nonDoneEmpty p st tpl u cs h hst
  · intro s pre post t f calls hr hq hstop hlook hout
    have hwf := reachable_wf s hr
    obtain ⟨hmid, hown, hsu⟩ := midInv_of_popped s pre post t hwf hq
    rw [runTask_success ({ s with taskQueue := pre ++ post }) t f calls hstop hlook hout]
    obtain ⟨hmid2, hown2, _, _, _, _, _⟩ :=
      execCommit_mid calls t.path _ t.template t.url [] hmid hown
    have h3 := treeNodeAt_setStateAt_self _ t.path .done _ hown2
    rw [h3]
    rfl
  · intro s s2 p tpl u cs hr hstep hq
    have hwf := reachable_wf s hr
    cases hstep with
    | registerOk template f s2 hreg =>
      cases hlook : List.lookup template s.templates with
      | some g =>
        rw [register_some s template f g hlook] at hreg
        simp at hreg
      | none =>
        rw [register_none s template f hlook] at hreg
        simp only [Except.ok.injEq] at hreg
        rw [← hreg]
        exact ⟨cs, hq, rfl⟩
    | startEntry template url hsu =>
      have h0 := (hwf.preStart hsu).1
      rw [treeNodeAt, h0] at hq
      simp at hq
    | startSnap snap hsu hok =>
      have h0 := (hwf.preStart hsu).1
      rw [treeNodeAt, h0] at hq
      simp at hq
    | startOther hsu => exact ⟨cs, hq, rfl⟩
    | stopStep => exact ⟨cs, hq, rfl⟩
    | emptyStep h1 h2 =>
      refine ⟨cs, ?_, rfl⟩
      rw [onDone]
      by_cases h3 : s.stopped = true
      · rw [if_pos h3]
        exact hq
      · rw [if_neg h3]
        exact hq
    | runStep pre post t hqq =>
      obtain ⟨hmid, hown, hsu⟩ := midInv_of_popped s pre post t hwf hqq
      have hqpop : treeNodeAt { s with taskQueue := pre ++ post } p =
          some (.task .done tpl u cs) := hq
      have hqp : p ≠ t.path := by
        intro he
        rw [he, hown] at hqpop
        simp at hqpop
      by_cases hstop : ({ s with taskQueue := pre ++ post } : SchedState).stopped = true
      · rw [runTask_stopped _ t hstop]
        exact ⟨cs, hqpop, rfl⟩
      · have h1 : ({ s with taskQueue := pre ++ post } : SchedState).stopped = false := by
          simpa using hstop
        cases hlook : List.lookup t.template
            ({ s with taskQueue := pre ++ post } : SchedState).templates with
        | none =>
          rw [runTask_noTemplate _ t h1 hlook]
          obtain ⟨n, hn, hlv⟩ := setStateAt_lview _ t.path .fail _ hown p _ hqpop hqp
          obtain ⟨cs2, hn2, hids⟩ := eq_of_lview_task n .done tpl u _ hlv
          exact ⟨cs2, hn2 ▸ hn, hids⟩
        | some f =>
          cases hout : f t.url with
          | failure ds err =>
            rw [runTask_failure _ t f ds err h1 hlook hout]
            obtain ⟨n, hn, hlv⟩ := setStateAt_lview _ t.path .fail _ hown p _ hqpop hqp
            obtain ⟨cs2, hn2, hids⟩ := eq_of_lview_task n .done tpl u _ hlv
            exact ⟨cs2, hn2 ▸ hn, hids⟩
          | success calls =>
            rw [runTask_success _ t f calls h1 hlook hout]
            obtain ⟨hmid2, hown2, _, _, _, _, _⟩ :=
              execCommit_mid calls t.path _ t.template t.url [] hmid hown
            obtain ⟨cs3, h3, hids3⟩ := execCommit_done calls t.path _
              t.template t.url [] hmid hown p tpl u cs hqpop
            obtain ⟨n, hn, hlv⟩ := setStateAt_lview _ t.path .done _ hown2 p _ h3 hqp
            obtain ⟨cs4, hn2, hids4⟩ := eq_of_lview_task n .done tpl u _ hlv
            exact ⟨cs4, hn2 ▸ hn, hids4.trans hids3⟩

/-- C2: with deduplication enabled, in every reachable state no two task
nodes of the tree share a url (two task nodes with the same url are at
the same path); and once a url is present on some task node of the tree,
replaying a later `add(template, url)` collector call for it leaves the
state unchanged — no node is created, nothing is dispatched. -/
theorem claim_C2 :
    (∀ s, Reachable s → s.options.distinct = true →
      ∀ p q st st2 tpl tpl2 u cs cs2,
        treeNodeAt s p = some (.task st tpl u cs) →
        treeNodeAt s q = some (.task st2 tpl2 u cs2) → p = q) ∧
    (∀ s owner tpl u, Reachable s → s.options.distinct = true →
      (∃ p st tpl2 cs, treeNodeAt s p = some (.task st tpl2 u cs)) →
      execStep owner s (.task tpl u) = s) := by
  refine ⟨?_, ?_⟩
  · intro s hr
    exact (reachable_wf s hr).urlsDistinct
  · rintro s owner tpl u hr hd ⟨p, st, tpl2, cs, hp⟩
    have hin : u ∈ s.urlSet := (reachable_wf s hr).urlsRecorded p st tpl2 u cs hp
    exact execStep_task_skip owner s tpl u ⟨hd, hin⟩

/-- C3: on a non-empty tree `getResults` returns exactly the data
payloads in depth-first, left-to-right visitation order together with the
completion flag, and that flag is true iff every task node currently in
the tree is `done`. -/
theorem claim_C3 : ∀ (s : SchedState) (root : Node), s.crawlTree = some root →
    getResultsOf s = .ok (collectData root, allDone root) ∧
    (allDone root = true ↔
      ∀ p st tpl u cs, nodeAt p root = some (.task st tpl u cs) → st = .done) := by
  intro s root h
  refine ⟨?_, allDone_iff_paths root⟩
  rw [getResultsOf, h, getResults, preOrderTraversal_eq, resultsFold_eq,
    List.nil_append, Bool.true_and, filterMap_preorderSpec, all_preorderSpec]

/-- C4 counterexample: on a freshly constructed scheduler — whose
`crawlTree` is still `null` — `getResults()` does not return a result:
the traversal callback dereferences `null.type` and throws a
`TypeError`. -/
theorem claim_C4_counterexample :
    getResultsOf (initState {}) =
      Except.error "TypeError: cannot read property type of null" := rfl

/-- C4 (amended): `getResults()` returns a result whenever the crawl
tree exists — i.e. at any time from the first `start` call on, including
mid-run — but on a scheduler whose tree is still in its initial `null`
state it raises a `TypeError` instead of returning. -/
theorem claim_C4 :
    (∀ (s : SchedState) (root : Node), s.crawlTree = some root →
      ∃ r, getResultsOf s = .ok r) ∧
    (∀ o : OptsArg, ∃ e, getResultsOf (initState o) = .error e) := by
  constructor
  · intro s root h
    exact ⟨_, by rw [getResultsOf, h, getResults]⟩
  · intro o
    exact ⟨_, rfl⟩

/-- C5: a dispatched task whose template is unregistered, or whose
template invocation fails, ends with the node in `fail` state with empty
children (the buffered collector calls are discarded — the commit is
never replayed), and with exactly one `fail` event carrying the error
appended; `runTask` is a total function, so no exception escapes the
scheduler. -/
theorem claim_C5 : ∀ s pre post t err, Reachable s →
    s.taskQueue = pre ++ t :: post → s.stopped = false →
    ((List.lookup t.template s.templates = none ∧
        err = "Templete " ++ t.template ++ " does not exist") ∨
      (∃ f ds, List.lookup t.template s.templates = some f ∧
        f t.url = .failure ds err)) →
    treeNodeAt (runTask { s with taskQueue := pre ++ post } t) t.path =
      some (.task .fail t.template t.url []) ∧
    (runTask { s with taskQueue := pre ++ post } t).events =
      s.events ++ [Event.fail err] := by
  intro s pre post t err hr hq hstop hcase
  have hwf := reachable_wf s hr
  obtain ⟨hmid, hown, hsu⟩ := midInv_of_popped s pre post t hwf hq
  rcases hcase with ⟨hlook, herr⟩ | ⟨f, ds, hlook, hout⟩
  · rw [runTask_noTemplate ({ s with taskQueue := pre ++ post }) t hstop hlook]
    refine ⟨treeNodeAt_setStateAt_self _ t.path .fail _ hown, ?_⟩
    rw [herr]
  · rw [runTask_failure ({ s with taskQueue := pre ++ post }) t f ds err hstop hlook hout]
    exact ⟨treeNodeAt_setStateAt_self _ t.path .fail _ hown, rfl⟩

/-- C6: the first `start(snapshot)` call on a non-stopped scheduler with
a snapshot whose task nodes are all `done` succeeds, installs the
snapshot unchanged as the tree (no node mutated), dispatches nothing
(the task queue is untouched), rebuilds the url registry, and fires the
`done` event. -/
theorem claim_C6 : ∀ (s : SchedState) (snap : Node), s.startUsed = false →
    s.stopped = false → allDone snap = true →
    start s (.snap snap) =
      .ok { s with
        crawlTree := some snap
        urlSet := s.urlSet ++ (preorderPaths snap []).filterMap taskUrlOf
        events := s.events ++ [Event.done]
        startUsed := true } := by
  intro s snap hsu hstop hall
  have hentries : (preorderPaths snap []).filterMap taskEntryOf = [] := by
    rw [List.filterMap_eq_nil_iff]
    intro a ha
    obtain ⟨q, n⟩ := a
    obtain ⟨r, hr, hnode⟩ := (mem_preorderPaths snap [] q n).mp ha
    simp only [List.nil_append] at hr
    subst hr
    cases n with
    | data d => rfl
    | task st tpl u cs =>
      have hdone := (allDone_iff_paths snap).mp hall q st tpl u cs hnode
      simp [taskEntryOf, hdone]
  rw [start, if_neg (by simp [hsu])]
  rw [markStarted, startWithSnapshot, hentries]
  simp only [List.isEmpty_nil, ite_true, List.append_nil]
  rw [onDone, if_neg (by simp [hstop] : ¬(({ s with
    crawlTree := some (resetNode snap)
    urlSet := s.urlSet ++ (preorderPaths snap []).filterMap taskUrlOf } :
      SchedState).stopped = true))]
  rw [resetNode_of_allDone snap hall]

/-- C7: the snapshot form of `start` re-dispatches exactly the task
nodes of the snapshot whose state is not `done` (queue membership iff
such a node exists at the path), installs the reset tree, where every
task node keeps its template, url, and children identities, non-`done`
states become `waiting` and `done` nodes stay `done`, and rebuilds the
dedup registry with the url of every task node of the snapshot. -/
theorem claim_C7 : ∀ (snap : Node) (s : SchedState),
    (∀ p tpl u, (⟨p, tpl, u⟩ : QueuedTask) ∈ (startWithSnapshot snap s).taskQueue ↔
      ((⟨p, tpl, u⟩ : QueuedTask) ∈ s.taskQueue ∨
        ∃ st cs, nodeAt p snap = some (.task st tpl u cs) ∧ st ≠ .done)) ∧
    ((startWithSnapshot snap s).crawlTree = some (resetNode snap)) ∧
    (∀ p st tpl u cs, nodeAt p snap = some (.task st tpl u cs) →
      ∃ cs2, treeNodeAt (startWithSnapshot snap s) p =
        some (.task (if st = .done then .done else .waiting) tpl u cs2) ∧
        cs2.map localId = cs.map localId) ∧
    (∀ u, u ∈ (startWithSnapshot snap s).urlSet ↔
      (u ∈ s.urlSet ∨ ∃ p st tpl cs, nodeAt p snap = some (.task st tpl u cs))) := by
  intro snap s
  refine ⟨?_, startWithSnapshot_crawlTree snap s, ?_, ?_⟩
  · intro p tpl u
    rw [startWithSnapshot_taskQueue, List.mem_append]
    constructor
    · rintro (h1 | h2)
      · exact Or.inl h1
      · obtain ⟨⟨q, n⟩, hv, he⟩ := List.mem_filterMap.mp h2
        obtain ⟨st, tpl2, u2, cs, hn, hst, hev⟩ := taskEntryOf_eq (q, n) _ he
        simp only at hn
        simp only [QueuedTask.mk.injEq] at hev
        obtain ⟨hp, htp, hu⟩ := hev
        subst hp; subst htp; subst hu
        obtain ⟨r, hr, hnode⟩ := (mem_preorderPaths snap [] p n).mp hv
        simp only [List.nil_append] at hr
        subst hr
        rw [hn] at hnode
        exact Or.inr ⟨st, cs, hnode, hst⟩
    · rintro (h1 | ⟨st, cs, hnode, hst⟩)
      · exact Or.inl h1
      · refine Or.inr (List.mem_filterMap.mpr
          ⟨(p, .task st tpl u cs), ?_, ?_⟩)
        · exact (mem_preorderPaths snap [] p _).mpr ⟨p, by simp, hnode⟩
        · simp [taskEntryOf, hst]
  · intro p st tpl u cs hnode
    refine ⟨resetList cs, ?_, resetList_map_localId cs⟩
    rw [treeNodeAt_eq _ _ (startWithSnapshot_crawlTree snap s) p,
      nodeAt_resetNode, hnode]
    rfl
  · intro u
    rw [startWithSnapshot_urlSet, List.mem_append]
    constructor
    · rintro (h1 | h2)
      · exact Or.inl h1
      · obtain ⟨⟨q, n⟩, hv, he⟩ := List.mem_filterMap.mp h2
        obtain ⟨st, tpl, cs, hn⟩ := taskUrlOf_eq (q, n) u he
        simp only at hn
        obtain ⟨r, hr, hnode⟩ := (mem_preorderPaths snap [] q n).mp hv
        simp only [List.nil_append] at hr
        subst hr
        rw [hn] at hnode
        exact Or.inr ⟨q, st, tpl, cs, hnode⟩
    · rintro (h1 | ⟨p, st, tpl, cs, hnode⟩)
      · exact Or.inl h1
      · refine Or.inr (List.mem_filterMap.mpr
          ⟨(p, .task st tpl u cs), ?_, rfl⟩)
        exact (mem_preorderPaths snap [] p _).mpr ⟨p, by simp, hnode⟩

/-- C8: the snapshot of a scheduler with tree `t` is exactly `t` — the
`JSON.stringify`/`JSON.parse` round-trip that implements the deep copy
loses no node kind, state, child ordering or payload value (first
conjunct, over every tree), so the copy is value-equal to the tree at
the moment of the call; being built by a parser, it shares no mutable
node with the original. -/
theorem claim_C8 :
    (∀ t, decodeNode (encodeNode t) = some t) ∧
    (∀ (s : SchedState) (t : Node), s.crawlTree = some t →
      snapshot s = some t) := by
  refine ⟨decode_encode, ?_⟩
  intro s t h
  rw [snapshot, h, Option.some_bind, decode_encode]

/-- C9: once the stop flag is set, a task body run from the queue
returns immediately with no effect whatsoever (first conjunct:
`runTask` is the identity — no state transition, no tree mutation, no
event); every step from a stopped state leaves the flag set and the
event log frozen (second conjunct), hence along any step sequence after
`stop()` no event — in particular no `done` — is ever emitted (third
conjunct). -/
theorem claim_C9 :
    (∀ s t, s.stopped = true → runTask s t = s) ∧
    (∀ s s2, s.stopped = true → Step s s2 →
      s2.stopped = true ∧ s2.events = s.events) ∧
    (∀ s s2, s.stopped = true → Relation.ReflTransGen Step s s2 →
      s2.events = s.events) := by
  refine ⟨runTask_stopped, stop_frozen, stop_frozen_rtg⟩

/-- C10: the first `start` call with an argument count other than one or
two succeeds silently and changes nothing except consuming the single
permitted start (and attaching the completion listener); every later
`start` call, with any argument shape, fails synchronously. -/
theorem claim_C10 : ∀ (s : SchedState) (n : Nat), s.startUsed = false →
    start s (.other n) = .ok (markStarted s) ∧
    (∀ args, start (markStarted s) args = .error "Cannot call start again") := by
  intro s n hsu
  constructor
  · simp [start, hsu]
  · intro args
    simp [start, markStarted]

/-! ## Concrete instances

A small concrete run used to instantiate the hypotheses of the claims:
register one template, start at an entry url, settle the single task. -/

def wTpl : TemplateFn := fun _ => TemplateOutcome.success [AddCall.data (JVal.num 1)]

def wFailTpl : TemplateFn :=
  fun _ => TemplateOutcome.failure [AddCall.data (JVal.num 9)] "boom"

def wS0 : SchedState := initState {}

def wS1 : SchedState := { wS0 with templates := [("t", wTpl)] }

def wS2 : SchedState := markStarted (startWithEntry "t" "a" wS1)

def wT : QueuedTask := ⟨[], "t", "a"⟩

def wS3 : SchedState := runTask { wS2 with taskQueue := [] } wT

theorem wQueue2 : wS2.taskQueue = [] ++ wT :: [] := rfl

theorem wReach2 : Reachable wS2 :=
  ⟨{}, Relation.ReflTransGen.tail
    (Relation.ReflTransGen.tail Relation.ReflTransGen.refl
      (Step.registerOk wS0 "t" wTpl wS1 (by rw [register_none wS0 "t" wTpl rfl]; rfl)))
    (Step.startEntry wS1 "t" "a" rfl)⟩

theorem wReach3 : Reachable wS3 := by
  obtain ⟨o, h⟩ := wReach2
  exact ⟨o, Relation.ReflTransGen.tail h (Step.runStep wS2 [] [] wT wQueue2)⟩

def wFS1 : SchedState := { wS0 with templates := [("f", wFailTpl)] }

def wFS2 : SchedState := markStarted (startWithEntry "f" "b" wFS1)

def wFT : QueuedTask := ⟨[], "f", "b"⟩

theorem wFReach2 : Reachable wFS2 :=
  ⟨{}, Relation.ReflTransGen.tail
    (Relation.ReflTransGen.tail Relation.ReflTransGen.refl
      (Step.registerOk wS0 "f" wFailTpl wFS1
        (by rw [register_none wS0 "f" wFailTpl rfl]; rfl)))
    (Step.startEntry wFS1 "f" "b" rfl)⟩

def wRoot : Node :=
  .task .done "r" "u" [.data (.num 1), .task .done "l" "v" [.data (.num 2)]]

def wSC3 : SchedState := { wS0 with crawlTree := some wRoot }

def wSnapDone : Node := .task .done "t" "u" [.data (.num 2)]

def wSnapMix : Node := .task .done "r" "a" [.task .fail "l" "b" []]

def wStopState : SchedState := stop wS2

/-- Witness for C1 at the concrete run: the settled root is `done` with
exactly its collector's data node as child; pre-commit, the waiting root
has no children; a further step (`stop`) leaves the done node intact. -/
theorem claim_C1_witness :
    treeNodeAt wS3 [] = some (.task .done "t" "a" [Node.data (JVal.num 1)]) ∧
    ([] : List Node) = [] ∧
    (∃ cs2, treeNodeAt (stop wS3) [] = some (.task .done "t" "a" cs2) ∧
      cs2.map localId = [Node.data (JVal.num 1)].map localId) := by
  refine ⟨?_, ?_, ?_⟩
  · exact claim_C1.2.1 wS2 [] [] wT wTpl [AddCall.data (JVal.num 1)]
      wReach2 wQueue2 rfl rfl rfl
  · exact claim_C1.1 wS2 wReach2 [] .waiting "t" "a" [] rfl (by decide)
  · exact claim_C1.2.2 wS3 (stop wS3) [] "t" "a" [Node.data (JVal.num 1)]
      wReach3 (Step.stopStep wS3) rfl

/-- Witness for C2: the two task-node occurrences of url `a` coincide,
and a later `add` call for the already-admitted url `a` is a no-op. -/
theorem claim_C2_witness :
    ([] : List Nat) = [] ∧
    execStep (some []) wS2 (.task "x" "a") = wS2 := by
  constructor
  · exact claim_C2.1 wS2 wReach2 rfl [] [] .waiting .waiting "t" "t" "a" [] []
      rfl rfl
  · exact claim_C2.2 wS2 (some []) "x" "a" wReach2 rfl ⟨[], .waiting, "t", [], rfl⟩

/-- Witness for C3 on a concrete two-level tree. -/
theorem claim_C3_witness :
    getResultsOf wSC3 = .ok ([JVal.num 1, JVal.num 2], true) :=
  (claim_C3 wSC3 wRoot rfl).1

/-- Witness for C4 (amended): with a tree present `getResults` returns
`ok`; on a fresh instance it errors. -/
theorem claim_C4_witness :
    (∃ r, getResultsOf wSC3 = Except.ok r) ∧
    (∃ e, getResultsOf (initState {}) = Except.error e) :=
  ⟨claim_C4.1 wSC3 wRoot rfl, claim_C4.2 {}⟩

/-- Witness for C5: a template rejecting with `boom` leaves the node
`fail` with no children and emits exactly one `fail boom` event. -/
theorem claim_C5_witness :
    treeNodeAt (runTask { wFS2 with taskQueue := [] } wFT) [] =
      some (.task .fail "f" "b" []) ∧
    (runTask { wFS2 with taskQueue := [] } wFT).events = [Event.fail "boom"] := by
  have h := claim_C5 wFS2 [] [] wFT "boom" wFReach2 rfl rfl
    (Or.inr ⟨wFailTpl, [AddCall.data (JVal.num 9)], rfl, rfl⟩)
  exact ⟨h.1, h.2⟩

/-- Witness for C6: resuming an all-`done` snapshot installs it
untouched, queues nothing, and fires `done`. -/
theorem claim_C6_witness :
    start wS0 (.snap wSnapDone) =
      .ok { wS0 with
        crawlTree := some wSnapDone
        urlSet := ["u"]
        events := [Event.done]
        startUsed := true } :=
  claim_C6 wS0 wSnapDone rfl rfl rfl

/-- Witness for C7: resuming a snapshot with one `fail` leaf queues
exactly that leaf, resets it to `waiting`, and records both urls. -/
theorem claim_C7_witness :
    ((⟨[0], "l", "b"⟩ : QueuedTask) ∈ (startWithSnapshot wSnapMix wS0).taskQueue) ∧
    (startWithSnapshot wSnapMix wS0).crawlTree =
      some (.task .done "r" "a" [.task .waiting "l" "b" []]) ∧
    ("b" ∈ (startWithSnapshot wSnapMix wS0).urlSet) := by
  refine ⟨?_, ?_, ?_⟩
  · exact ((claim_C7 wSnapMix wS0).1 [0] "l" "b").mpr
      (Or.inr ⟨.fail, [], rfl, by decide⟩)
  · rw [(claim_C7 wSnapMix wS0).2.1]
    rfl
  · exact ((claim_C7 wSnapMix wS0).2.2.2 "b").mpr
      (Or.inr ⟨[0], .fail, "l", [], rfl⟩)

/-- Witness for C8 on a concrete tree. -/
theorem claim_C8_witness :
    decodeNode (encodeNode wSnapMix) = some wSnapMix ∧
    snapshot { wS0 with crawlTree := some wSnapMix } = some wSnapMix :=
  ⟨claim_C8.1 wSnapMix, claim_C8.2 _ wSnapMix rfl⟩

/-- Witness for C9 at a concrete stopped state: a queued body is a
no-op, a further stop keeps the flag and the log, and settling the
queued task along a step sequence emits nothing. -/
theorem claim_C9_witness :
    runTask wStopState wT = wStopState ∧
    ((stop wStopState).stopped = true ∧
      (stop wStopState).events = wStopState.events) ∧
    (runTask { wStopState with taskQueue := [] } wT).events =
      wStopState.events := by
  refine ⟨?_, ?_, ?_⟩
  · exact claim_C9.1 wStopState wT rfl
  · exact claim_C9.2.1 wStopState (stop wStopState) rfl (Step.stopStep wStopState)
  · exact claim_C9.2.2 wStopState _ rfl
      (Relation.ReflTransGen.single (Step.runStep wStopState [] [] wT rfl))

/-- Witness for C10: a zero-argument-shaped first call is a silent no-op
that still consumes the single permitted start. -/
theorem claim_C10_witness :
    start wS0 (.other 3) = .ok (markStarted wS0) ∧
    start (markStarted wS0) (.entry "t" "a") =
      .error "Cannot call start again" := by
  have h := claim_C10 wS0 3 rfl
  exact ⟨h.1, h.2 (.entry "t" "a")⟩

end Nekopara
